import Mathlib

/-!
Shallow embedding of the trade-ledger reconstruction and performance-accounting
engine of the xMarket bots repository.

Numbers are modelled as exact rationals (`ℚ`).  JavaScript's
`Math.round(v)` (round half toward positive infinity) is `jsRound`;
`Array.prototype.sort` with the comparator `(a, b) => a.ts - b.ts` is a stable
sort by timestamp and is modelled with `List.insertionSort` (the unique stable
sort for that comparator).  JavaScript `Map`s keyed by symbol (updated in place,
appended on first insertion) are modelled as association lists with `setA`.
Fallible code (`throw`) returns `Except`.

Write side (bot runner, `computeFifoPositionPayload` / `submitSpotOrder`):
the FIFO position payload and the atomic spot-order mutation.
Read side (`useLiveBotStats.ts`): `normalizeOrders`, `computeBotStats`,
`buildClosedTradeEntries`, `aggregateOpenPositions`.
-/

deriving instance DecidableEq for Except

namespace XMarket

/-- JavaScript `Math.round`: round half up, `⌊x + 1/2⌋`, computed with
integer arithmetic so that it evaluates by kernel reduction. -/
def jsRound (x : ℚ) : ℤ := (2 * x.num + x.den) / (2 * (x.den : ℤ))

/-- `const round6 = (value) => Math.round(value * 1e6) / 1e6;` -/
def round6 (value : ℚ) : ℚ := (jsRound (value * 1000000) : ℚ) / 1000000

/-- `const FIFO_EPSILON = 1e-9;` (write-side, bot runner). -/
def FIFO_EPSILON : ℚ := 1 / 1000000000

/-- `const STATS_EPSILON = 1e-6;` (read-side, `useLiveBotStats.ts`). -/
def STATS_EPSILON : ℚ := 1 / 1000000

/-- `const DEFAULT_INITIAL_CASH = 1_000_000;` (also `DEFAULT_INITIAL_CREDITS`). -/
def DEFAULT_INITIAL_CASH : ℚ := 1000000

/-- `x` is representable with six decimal digits (`x * 1e6` is an integer). -/
def IsDec6 (x : ℚ) : Prop := (x * 1000000).den = 1

instance (x : ℚ) : Decidable (IsDec6 x) := inferInstanceAs (Decidable (_ = _))

/-- `x` is a positive whole number (used for integer-quantity fill histories). -/
def IsPosInt (x : ℚ) : Prop := x.den = 1 ∧ 0 < x

instance (x : ℚ) : Decidable (IsPosInt x) := inferInstanceAs (Decidable (_ ∧ _))

/-- One open lot as stored in a position document: `{ qty, price, ts }`. -/
structure FifoLotDoc where
  qty : ℚ
  price : ℚ
  ts : ℤ
deriving DecidableEq, Repr

/-- Comparator `(a, b) => a.ts - b.ts` as an ordering relation on lots. -/
def lotLE (a b : FifoLotDoc) : Prop := a.ts ≤ b.ts

instance : DecidableRel lotLE := fun a b => inferInstanceAs (Decidable (a.ts ≤ b.ts))

instance : IsTotal FifoLotDoc lotLE := ⟨fun a b => le_total a.ts b.ts⟩

instance : IsTrans FifoLotDoc lotLE := ⟨fun _ _ _ h h' => le_trans h h'⟩

/-- `normalizeFifoLots` (bot runner): drop lots whose quantity is `≤ FIFO_EPSILON`
and sort ascending by timestamp.  (The sanitization of non-numeric fields is
vacuous in the typed embedding.) -/
def normalizeFifoLots (raw : List FifoLotDoc) : List FifoLotDoc :=
  List.insertionSort lotLE (raw.filter (fun lot => decide (FIFO_EPSILON < lot.qty)))

/-- `type SpotSide = "buy" | "sell";` -/
inductive SpotSide where
  | buy
  | sell
deriving DecidableEq, Repr

/-- The sell loop of `computeFifoPositionPayload`: walk the current lots in
order, consuming `min(lot.qty, remaining)` from each while `remaining`
exceeds `FIFO_EPSILON`; a partially consumed lot is kept (rounded) only when
its leftover exceeds `FIFO_EPSILON`.  Returns the updated lot list and the
final `remaining`. -/
def fifoSellLoop : ℚ → List FifoLotDoc → List FifoLotDoc × ℚ
  | remaining, [] => ([], remaining)
  | remaining, lot :: rest =>
    if remaining ≤ FIFO_EPSILON then
      let next := fifoSellLoop remaining rest
      (lot :: next.1, next.2)
    else
      let consume := min lot.qty remaining
      let leftover := lot.qty - consume
      let next := fifoSellLoop (remaining - consume) rest
      if FIFO_EPSILON < leftover then
        ({ lot with qty := round6 leftover } :: next.1, next.2)
      else
        (next.1, next.2)

/-- The normalization pass applied to `nextLots` at the end of
`computeFifoPositionPayload`: filter near-zero lots, round quantity and price
to six decimals, re-sort by timestamp. -/
def finalizeLots (nextLots : List FifoLotDoc) : List FifoLotDoc :=
  List.insertionSort lotLE
    ((nextLots.filter (fun lot => decide (FIFO_EPSILON < lot.qty))).map
      (fun lot => { lot with qty := round6 lot.qty, price := round6 lot.price }))

/-- The position payload written back by the bot runner:
`{ symbol, qty, avgPrice, lots, updatedAt }`. -/
structure PositionPayload where
  symbol : String
  qty : ℚ
  avgPrice : ℚ
  lots : List FifoLotDoc
  updatedAt : ℤ
deriving DecidableEq, Repr

/-- The trailing part of `computeFifoPositionPayload`: derived totals and the
payload record, computed from the finalized lot list. -/
def mkPayload (symbol : String) (nextLots : List FifoLotDoc) (ts : ℤ) : PositionPayload :=
  let totalQty := nextLots.foldl (fun acc lot => acc + lot.qty) 0
  let totalCost := nextLots.foldl (fun acc lot => acc + lot.qty * lot.price) 0
  { symbol := symbol
    qty := round6 totalQty
    avgPrice := if FIFO_EPSILON < totalQty then round6 (totalCost / totalQty) else 0
    lots := nextLots
    updatedAt := ts }

/-- `computeFifoPositionPayload` (bot runner).  The snapshot is modelled by the
raw lot list stored in the position document.  A buy appends
`{ qty: round6(qty), price, ts }`; a sell consumes oldest-first and throws
`"Insufficient FIFO lots to settle sell order."` when more than
`FIFO_EPSILON` remains unconsumed. -/
def computeFifoPositionPayload (snapshotLots : List FifoLotDoc) (symbol : String)
    (side : SpotSide) (qty price : ℚ) (ts : ℤ) : Except String PositionPayload :=
  let currentLots := normalizeFifoLots snapshotLots
  match side with
  | SpotSide.buy =>
    Except.ok (mkPayload symbol
      (finalizeLots (currentLots ++ [{ qty := round6 qty, price := price, ts := ts }])) ts)
  | SpotSide.sell =>
    let next := fifoSellLoop qty currentLots
    if FIFO_EPSILON < next.2 then
      Except.error ("Insufficient FIFO lots to settle sell order.")
    else
      Except.ok (mkPayload symbol (finalizeLots next.1) ts)

/-- The lot list produced by the buy branch of `computeFifoPositionPayload`. -/
def applyBuy (snapshotLots : List FifoLotDoc) (qty price : ℚ) (ts : ℤ) : List FifoLotDoc :=
  finalizeLots (normalizeFifoLots snapshotLots ++ [{ qty := round6 qty, price := price, ts := ts }])

/-- Folding the buy branch over a list of `(qty, price, ts)` buy fills from an
empty lot list. -/
def buyFold (buys : List (ℚ × ℚ × ℤ)) : List FifoLotDoc :=
  buys.foldl (fun acc b => applyBuy acc b.1 b.2.1 b.2.2) []

/-- The user document fields read by the ledger mutation:
`{ cash?, initialCredits? }` (absent or non-numeric fields are `none`). -/
structure UserDoc where
  cash : Option ℚ
  initialCredits : Option ℚ
deriving DecidableEq, Repr

/-- The base balance used by `computeCashAfterDelta`:
`sanitizeNumber(data?.cash) ?? sanitizeNumber(data?.initialCredits) ?? fallbackInitial`. -/
def cashBase (snapshot : Option UserDoc) (fallbackInitial : ℚ) : ℚ :=
  match snapshot with
  | none => fallbackInitial
  | some data =>
    match data.cash with
    | some c => c
    | none =>
      match data.initialCredits with
      | some c => c
      | none => fallbackInitial

/-- `computeCashAfterDelta` (bot runner): `round6(base + delta)`. -/
def computeCashAfterDelta (snapshot : Option UserDoc) (delta fallbackInitial : ℚ) : ℚ :=
  round6 (cashBase snapshot fallbackInitial + delta)

/-- An order record appended to the order log by `submitSpotOrder`
(the `ts: serverTimestamp()` field is store-assigned and not modelled). -/
structure OrderRecord where
  symbol : String
  side : SpotSide
  qty : ℚ
  type : String
  status : String
  fillPrice : ℚ
deriving DecidableEq, Repr

/-- `SpotOrderParams` (uid and the free-form `extra` payload are omitted). -/
structure SpotOrderParams where
  symbol : String
  side : SpotSide
  qty : ℚ
  fillPrice : ℚ
  type : String
  lotTimestamp : ℤ
deriving DecidableEq, Repr

/-- The per-account ledger state touched by `submitSpotOrder`: the user
document, one position document per symbol, and the append-only order log. -/
structure AccountState where
  user : Option UserDoc
  positions : List (String × PositionPayload)
  orders : List OrderRecord
deriving DecidableEq, Repr

/-- Association-list read, modelling `Map.get` / document lookup. -/
def getA {β : Type} : List (String × β) → String → Option β
  | [], _ => none
  | kv :: rest, k => if kv.1 = k then some kv.2 else getA rest k

/-- Association-list write, modelling `Map.set` / `tx.set` on a keyed document:
update in place, append on first insertion. -/
def setA {β : Type} : List (String × β) → String → β → List (String × β)
  | [], k, v => [(k, v)]
  | kv :: rest, k, v => if kv.1 = k then (k, v) :: rest else kv :: setA rest k v

/-- The raw lot list of the position document for `symbol` (empty when the
document does not exist). -/
def getPositionLots (st : AccountState) (symbol : String) : List FifoLotDoc :=
  match getA st.positions symbol with
  | some payload => payload.lots
  | none => []

/-- `tx.set(userRef, { cash: nextCash }, { merge: true })`. -/
def setCash (user : Option UserDoc) (nextCash : ℚ) : UserDoc :=
  match user with
  | none => { cash := some nextCash, initialCredits := none }
  | some u => { u with cash := some nextCash }

/-- `submitSpotOrder` (bot runner).  Validates quantity and price, computes the
cash delta and the new position payload, and commits cash, position and a new
order record as a single transaction.  An `Except.error` result models the
rejected transaction: no partial state is produced. -/
def submitSpotOrder (st : AccountState) (p : SpotOrderParams) : Except String AccountState :=
  if p.qty ≤ 0 then Except.error ("Quantity must be positive.")
  else if p.fillPrice ≤ 0 then Except.error ("Price must be positive.")
  else
    let cashDelta := (if p.side = SpotSide.buy then (-1 : ℚ) else 1) * p.qty * p.fillPrice
    let nextCash := computeCashAfterDelta st.user cashDelta DEFAULT_INITIAL_CASH
    match computeFifoPositionPayload (getPositionLots st p.symbol) p.symbol p.side
        p.qty p.fillPrice p.lotTimestamp with
    | Except.error msg => Except.error msg
    | Except.ok payload =>
      Except.ok
        { user := some (setCash st.user nextCash)
          positions := setA st.positions p.symbol payload
          orders := st.orders ++
            [{ symbol := p.symbol, side := p.side, qty := p.qty, type := p.type,
               status := "filled", fillPrice := p.fillPrice }] }

/-- Sum of the lot quantities of a lot list. -/
def sumQ (lots : List FifoLotDoc) : ℚ := (lots.map (fun lot => lot.qty)).sum

/-- JavaScript `String.prototype.toLowerCase`, restricted to character-wise
lowering (kernel-computable counterpart of `String.toLower`). -/
def lowerString (s : String) : String := String.mk (s.data.map Char.toLower)

/-- A well-formed fill produced by `normalizeOrders` (`NormalizedOrder` in
`useLiveBotStats.ts`). -/
structure NormalizedOrder where
  symbol : String
  side : SpotSide
  qty : ℚ
  fillPrice : ℚ
  ts : ℤ
deriving DecidableEq, Repr

/-- Ordering of normalized orders by timestamp (`(a, b) => a.ts - b.ts`). -/
def ordLE (a b : NormalizedOrder) : Prop := a.ts ≤ b.ts

instance : DecidableRel ordLE := fun a b => inferInstanceAs (Decidable (a.ts ≤ b.ts))

instance : IsTotal NormalizedOrder ordLE := ⟨fun a b => le_total a.ts b.ts⟩

instance : IsTrans NormalizedOrder ordLE := ⟨fun _ _ _ h h' => le_trans h h'⟩

/-- A raw order document as read back from the store.  `none` models a field
that is missing, of the wrong type, or (for numbers) non-finite — exactly the
cases collapsed by `sanitizeNumber` and the `typeof` guards.  `ts` is the
resolved epoch-millisecond value when one of the accepted timestamp shapes is
present. -/
structure RawOrderDoc where
  id : String
  symbol : Option String
  side : Option String
  qty : Option ℚ
  fillPrice : Option ℚ
  ts : Option ℤ
deriving DecidableEq, Repr

/-- The per-document body of `normalizeOrders`: symbol falls back to the
document id when the field is not a string, the side must lowercase to
`"buy"` or `"sell"`, quantity and fill price must be present and exceed
`STATS_EPSILON`, and a missing timestamp falls back to `now`. -/
def normalizeOrderDoc (now : ℤ) (order : RawOrderDoc) : Option NormalizedOrder :=
  let symbolRaw := match order.symbol with
    | some s => s
    | none => order.id
  let sideRaw := match order.side with
    | some s => lowerString s
    | none => ""
  let ts := match order.ts with
    | some t => t
    | none => now
  if symbolRaw = "" ∨ (sideRaw ≠ "buy" ∧ sideRaw ≠ "sell") then none
  else
    match order.qty, order.fillPrice with
    | some qty, some fillPrice =>
      if qty ≤ STATS_EPSILON ∨ fillPrice ≤ STATS_EPSILON then none
      else
        some { symbol := symbolRaw
               side := if sideRaw = "buy" then SpotSide.buy else SpotSide.sell
               qty := qty, fillPrice := fillPrice, ts := ts }
    | _, _ => none

/-- `normalizeOrders` (`useLiveBotStats.ts`): map, drop malformed records, sort
ascending by timestamp. -/
def normalizeOrders (now : ℤ) (docs : List RawOrderDoc) : List NormalizedOrder :=
  List.insertionSort ordLE (docs.filterMap (normalizeOrderDoc now))

/-- A scratch FIFO book entry in `computeBotStats`: `{ qty, price }`. -/
structure StatsBookLot where
  qty : ℚ
  price : ℚ
deriving DecidableEq, Repr

/-- The inner `while` loop of `computeBotStats` for a sell order: consume from
the front of the book, accumulating the order's P&L, while `remaining`
exceeds `STATS_EPSILON` and the book is non-empty.  Returns
`(book, remaining, orderPnl)`.  In the branch where the head lot is only
partially consumed (`lot.qty - consume > STATS_EPSILON`), `consume` equals
`remaining`, so the recomputed `remaining` is `0` and the loop condition
fails on the next check; the translation returns there directly. -/
def statsSellLoop (fillPrice : ℚ) : List StatsBookLot → ℚ → ℚ → List StatsBookLot × ℚ × ℚ
  | [], remaining, orderPnl => ([], remaining, orderPnl)
  | lot :: rest, remaining, orderPnl =>
    if remaining ≤ STATS_EPSILON then (lot :: rest, remaining, orderPnl)
    else
      let consume := min lot.qty remaining
      let orderPnl2 := orderPnl + (fillPrice - lot.price) * consume
      let lotQty2 := lot.qty - consume
      let remaining2 := remaining - consume
      if lotQty2 ≤ STATS_EPSILON then statsSellLoop fillPrice rest remaining2 orderPnl2
      else ({ lot with qty := lotQty2 } :: rest, remaining2, orderPnl2)

/-- The accumulator threaded through the order loop of `computeBotStats`. -/
structure BotStatsAcc where
  books : List (String × List StatsBookLot)
  realizedPnl : ℚ
  wins : ℕ
  losses : ℕ
  closedTrades : ℕ
deriving DecidableEq, Repr

/-- The scratch FIFO book of `symbol` in `computeBotStats`. -/
def getBook (books : List (String × List StatsBookLot)) (symbol : String) :
    List StatsBookLot :=
  match getA books symbol with
  | some book => book
  | none => []

/-- One iteration of the order loop of `computeBotStats`: a buy pushes a book
lot; a sell runs the FIFO consumption loop and, when it fully consumes
(final `remaining ≤ STATS_EPSILON`), books one closed trade whose P&L sign
(against `±STATS_EPSILON`) decides win, loss, or neither. -/
def statsStep (acc : BotStatsAcc) (order : NormalizedOrder) : BotStatsAcc :=
  let book := getBook acc.books order.symbol
  match order.side with
  | SpotSide.buy =>
    let book2 := book ++ [{ qty := order.qty, price := order.fillPrice : StatsBookLot }]
    { acc with books := setA acc.books order.symbol book2 }
  | SpotSide.sell =>
    let r := statsSellLoop order.fillPrice book order.qty 0
    let acc2 := { acc with books := setA acc.books order.symbol r.1 }
    if r.2.1 ≤ STATS_EPSILON then
      { acc2 with
        realizedPnl := acc2.realizedPnl + r.2.2
        closedTrades := acc2.closedTrades + 1
        wins := if STATS_EPSILON < r.2.2 then acc2.wins + 1 else acc2.wins
        losses :=
          if STATS_EPSILON < r.2.2 then acc2.losses
          else if r.2.2 < -STATS_EPSILON then acc2.losses + 1
          else acc2.losses }
    else acc2

/-- The record returned by `computeBotStats`. -/
structure BotStats where
  tradesCount : ℕ
  pnl : ℚ
  roi : ℚ
  realizedPnl : ℚ
  wins : ℕ
  losses : ℕ
  winRate : ℚ
  closedTrades : ℕ
deriving DecidableEq, Repr

/-- `computeBotStats` (`useLiveBotStats.ts`). -/
def computeBotStats (initialCredits totalValue : ℚ) (orders : List NormalizedOrder) :
    BotStats :=
  let acc := orders.foldl statsStep
    { books := [], realizedPnl := 0, wins := 0, losses := 0, closedTrades := 0 }
  { tradesCount := orders.length
    pnl := round6 (totalValue - initialCredits)
    roi := if STATS_EPSILON < initialCredits
      then (totalValue - initialCredits) / initialCredits else 0
    realizedPnl := round6 acc.realizedPnl
    wins := acc.wins
    losses := acc.losses
    winRate := if 0 < acc.closedTrades then (acc.wins : ℚ) / (acc.closedTrades : ℚ) else 0
    closedTrades := acc.closedTrades }

/-- A `ClosedTradeEntry` (`useLiveBotStats.ts`). -/
structure ClosedTradeEntry where
  symbol : String
  qty : ℚ
  buyPrice : ℚ
  sellPrice : ℚ
  buyTs : ℤ
  sellTs : ℤ
  pnl : ℚ
deriving DecidableEq, Repr

/-- The inner `while` loop of `buildClosedTradeEntries` for one sell order:
emit one entry per (partially) consumed lot.  In the branch where the head
lot survives (`round6(lot.qty - consume) > STATS_EPSILON`), `consume` is
strictly below `lot.qty`, hence `consume = remaining` and the recomputed
remaining is `round6 0 = 0`, so the loop stops there. -/
def closedSellLoop (symbol : String) (sellPrice : ℚ) (sellTs : ℤ) :
    ℚ → List FifoLotDoc → List ClosedTradeEntry × List FifoLotDoc
  | _, [] => ([], [])
  | remaining, lot :: rest =>
    if remaining ≤ STATS_EPSILON then ([], lot :: rest)
    else
      let consume := min lot.qty remaining
      let entry : ClosedTradeEntry :=
        { symbol := symbol, qty := round6 consume, buyPrice := lot.price
          sellPrice := sellPrice, buyTs := lot.ts, sellTs := sellTs
          pnl := round6 ((sellPrice - lot.price) * consume) }
      let lotQty2 := round6 (lot.qty - consume)
      let remaining2 := round6 (remaining - consume)
      if lotQty2 ≤ STATS_EPSILON then
        let next := closedSellLoop symbol sellPrice sellTs remaining2 rest
        (entry :: next.1, next.2)
      else (entry :: [], { lot with qty := lotQty2 } :: rest)

/-- One iteration of the order loop of `buildClosedTradeEntries`: the state is
the per-symbol lot queues plus the emitted entries. -/
def closedStep (state : List (String × List FifoLotDoc) × List ClosedTradeEntry)
    (order : NormalizedOrder) :
    List (String × List FifoLotDoc) × List ClosedTradeEntry :=
  let lots := match getA state.1 order.symbol with
    | some l => l
    | none => []
  match order.side with
  | SpotSide.buy =>
    (setA state.1 order.symbol
      (lots ++ [{ qty := order.qty, price := order.fillPrice, ts := order.ts }]), state.2)
  | SpotSide.sell =>
    let r := closedSellLoop order.symbol order.fillPrice order.ts order.qty lots
    (setA state.1 order.symbol r.2, state.2 ++ r.1)

/-- `buildClosedTradeEntries` (`useLiveBotStats.ts`). -/
def buildClosedTradeEntries (orders : List NormalizedOrder) : List ClosedTradeEntry :=
  (orders.foldl closedStep ([], [])).2

/-- An `AggregatedPosition` (`useLiveBotStats.ts`). -/
structure AggregatedPosition where
  symbol : String
  lots : List FifoLotDoc
  totalQty : ℚ
  avgPrice : ℚ
deriving DecidableEq, Repr

/-- The sell branch of `aggregateOpenPositions`: the `map` over the lots with
the closure-captured mutable `remaining`, consuming oldest lots first. -/
def aggSellMap : ℚ → List FifoLotDoc → List FifoLotDoc
  | _, [] => []
  | remaining, lot :: rest =>
    if remaining ≤ STATS_EPSILON then lot :: aggSellMap remaining rest
    else
      let consume := min lot.qty remaining
      { lot with qty := lot.qty - consume } :: aggSellMap (remaining - consume) rest

/-- One iteration of the order loop of `aggregateOpenPositions`. -/
def aggStep (m : List (String × AggregatedPosition)) (order : NormalizedOrder) :
    List (String × AggregatedPosition) :=
  let agg := match getA m order.symbol with
    | some a => a
    | none => { symbol := order.symbol, lots := [], totalQty := 0, avgPrice := 0 }
  match order.side with
  | SpotSide.buy =>
    setA m order.symbol
      { agg with
        lots := agg.lots ++ [{ qty := order.qty, price := order.fillPrice, ts := order.ts }]
        totalQty := agg.totalQty + order.qty }
  | SpotSide.sell =>
    setA m order.symbol
      { agg with
        lots := (aggSellMap order.qty agg.lots).filter
          (fun lot => decide (STATS_EPSILON < lot.qty))
        totalQty := max 0 (agg.totalQty - order.qty) }

/-- The output mapping of `aggregateOpenPositions`: recompute the totals from
the lots, round the displayed lots to six decimals. -/
def finalizeAgg (agg : AggregatedPosition) : AggregatedPosition :=
  let totalCost := agg.lots.foldl (fun acc lot => acc + lot.qty * lot.price) 0
  let totalQty := agg.lots.foldl (fun acc lot => acc + lot.qty) 0
  { symbol := agg.symbol
    lots := (agg.lots.filter (fun lot => decide (STATS_EPSILON < lot.qty))).map
      (fun lot => { qty := round6 lot.qty, price := round6 lot.price, ts := lot.ts })
    totalQty := round6 totalQty
    avgPrice := round6 (if STATS_EPSILON < totalQty then totalCost / totalQty else 0) }

/-- `aggregateOpenPositions` (`useLiveBotStats.ts`): replay the orders through
per-symbol FIFO books, then map to display aggregates and drop symbols whose
total quantity is `≤ STATS_EPSILON`. -/
def aggregateOpenPositions (orders : List NormalizedOrder) : List AggregatedPosition :=
  (((orders.foldl aggStep []).map (fun kv => finalizeAgg kv.2)).filter
    (fun agg => decide (STATS_EPSILON < agg.totalQty)))

/-- One incremental write-side step: read the stored position payload for the
fill's symbol, run `computeFifoPositionPayload` on it, store the new payload. -/
def writeStep (m : List (String × PositionPayload)) (f : NormalizedOrder) :
    Except String (List (String × PositionPayload)) :=
  let snapshotLots := match getA m f.symbol with
    | some payload => payload.lots
    | none => []
  match computeFifoPositionPayload snapshotLots f.symbol f.side f.qty f.fillPrice f.ts with
  | Except.error msg => Except.error msg
  | Except.ok payload => Except.ok (setA m f.symbol payload)

/-- Folding the write-side ledger mutation fill-by-fill over a history. -/
def writeFold (m : List (String × PositionPayload)) :
    List NormalizedOrder → Except String (List (String × PositionPayload))
  | [] => Except.ok m
  | f :: fs =>
    match writeStep m f with
    | Except.error msg => Except.error msg
    | Except.ok m2 => writeFold m2 fs

/-- The stored lot list for `symbol` in a write-side position store. -/
def writeLotsAt (m : List (String × PositionPayload)) (symbol : String) :
    List FifoLotDoc :=
  match getA m symbol with
  | some payload => payload.lots
  | none => []

/-- The final write-side lot list for `symbol` after folding a history from an
empty store (empty on overselling failure). -/
def foldLotsAt (orders : List NormalizedOrder) (symbol : String) : List FifoLotDoc :=
  match writeFold [] orders with
  | Except.ok m => writeLotsAt m symbol
  | Except.error _ => []

/-- The lot list held for `symbol` in an `aggregateOpenPositions` replay
state. -/
def aggLotsA (a : List (String × AggregatedPosition)) (symbol : String) :
    List FifoLotDoc :=
  match getA a symbol with
  | some agg => agg.lots
  | none => []

/-- The lot list reported for `symbol` by the output of
`aggregateOpenPositions` (empty when the symbol was dropped). -/
def aggLotsOut (out : List AggregatedPosition) (symbol : String) : List FifoLotDoc :=
  match out.find? (fun agg => decide (agg.symbol = symbol)) with
  | some agg => agg.lots
  | none => []

/-- Total of the remaining open-lot quantities across all symbols of an
`aggregateOpenPositions` output. -/
def outTotal (out : List AggregatedPosition) : ℚ := (out.map (fun agg => sumQ agg.lots)).sum

/-- Sum of the buy quantities of a fill sequence. -/
def sumBuys (orders : List NormalizedOrder) : ℚ :=
  ((orders.filter (fun o => decide (o.side = SpotSide.buy))).map (fun o => o.qty)).sum

/-- Sum of the sell quantities of a fill sequence. -/
def sumSells (orders : List NormalizedOrder) : ℚ :=
  ((orders.filter (fun o => decide (o.side = SpotSide.sell))).map (fun o => o.qty)).sum

/-- Total of the lot quantities held across all symbols of a replay state. -/
def sumAcross (a : List (String × AggregatedPosition)) : ℚ :=
  (a.map (fun kv => sumQ kv.2.lots)).sum

/-- No overselling along the `aggregateOpenPositions` replay starting from
state `a`: every sell's quantity is at most the quantity then held in its
symbol's lots. -/
def noOversellB (a : List (String × AggregatedPosition)) : List NormalizedOrder → Bool
  | [] => true
  | o :: os =>
    (decide (o.side = SpotSide.sell → o.qty ≤ sumQ (aggLotsA a o.symbol))) &&
      noOversellB (aggStep a o) os

/-- The cash field of the user document of an account state. -/
def cashOf (st : AccountState) : Option ℚ :=
  match st.user with
  | some u => u.cash
  | none => none

/-- `{a with qty := round6 a.qty, price := round6 a.price}` on every lot: how a
write-side lot list relates to the corresponding read-side one. -/
def roundLot (lot : FifoLotDoc) : FifoLotDoc :=
  { lot with qty := round6 lot.qty, price := round6 lot.price }

/-- The remaining lot list is a contiguous suffix of the original one, with at
most its first (oldest surviving) lot reduced in quantity. -/
def IsReducedSuffix (orig res : List FifoLotDoc) : Prop :=
  ∃ n, res = orig.drop n ∨
    ∃ q a rest, orig.drop n = a :: rest ∧ q ≤ a.qty ∧ res = { a with qty := q } :: rest

/-- Concrete fill history for the worked FIFO example:
buy 10 @ 100 (t=1), buy 5 @ 110 (t=2), sell 12 @ 120 (t=3). -/
def exampleFills : List NormalizedOrder :=
  [{ symbol := "AAPL", side := SpotSide.buy, qty := 10, fillPrice := 100, ts := 1 },
   { symbol := "AAPL", side := SpotSide.buy, qty := 5, fillPrice := 110, ts := 2 },
   { symbol := "AAPL", side := SpotSide.sell, qty := 12, fillPrice := 120, ts := 3 }]

/-- Integer-quantity two-fill history used to exercise the replay-agreement
and conservation theorems. -/
def intFills : List NormalizedOrder :=
  [{ symbol := "A", side := SpotSide.buy, qty := 2, fillPrice := 100, ts := 1 },
   { symbol := "A", side := SpotSide.sell, qty := 1, fillPrice := 120, ts := 2 }]

/-- Fractional-quantity history with no overselling: buy 3e-6, sell 2e-6.  The
write-side ledger keeps the 1e-6 residual lot while the read-side replay
drops it. -/
def residualFills : List NormalizedOrder :=
  [{ symbol := "A", side := SpotSide.buy, qty := 3 / 1000000, fillPrice := 1, ts := 1 },
   { symbol := "A", side := SpotSide.sell, qty := 2 / 1000000, fillPrice := 1, ts := 2 }]

/-- Fractional-quantity history with no overselling in which the read-side
replay silently drops two separate 1e-6 residual lots, so the conservation
defect reaches 2e-6. -/
def residualFills2 : List NormalizedOrder :=
  [{ symbol := "A", side := SpotSide.buy, qty := 3 / 1000000, fillPrice := 1, ts := 1 },
   { symbol := "A", side := SpotSide.sell, qty := 2 / 1000000, fillPrice := 1, ts := 2 },
   { symbol := "A", side := SpotSide.buy, qty := 3 / 1000000, fillPrice := 1, ts := 3 },
   { symbol := "A", side := SpotSide.sell, qty := 2 / 1000000, fillPrice := 1, ts := 4 }]

/-- An account state holding 100 in cash and no lots. -/
def lowCashState : AccountState :=
  { user := some { cash := some 100, initialCredits := some 1000000 }
    positions := []
    orders := [] }

/-- An account state with no user document and no position documents. -/
def emptyState : AccountState :=
  { user := none, positions := [], orders := [] }

/-- A sell of 5 units at price 10 (zero lots held in `emptyState`). -/
def oversellParams : SpotOrderParams :=
  { symbol := "AAPL", side := SpotSide.sell, qty := 5, fillPrice := 10,
    type := "MARKET", lotTimestamp := 7 }

/-- A buy of 1 unit at price 200 (exceeding the 100 cash of `lowCashState`). -/
def bigBuyParams : SpotOrderParams :=
  { symbol := "AAPL", side := SpotSide.buy, qty := 1, fillPrice := 200,
    type := "MARKET", lotTimestamp := 7 }

/-- A stats accumulator holding one 5 @ 10 book lot for `"A"`. -/
def exampleAcc : BotStatsAcc :=
  { books := [("A", [{ qty := 5, price := 10 }])]
    realizedPnl := 0, wins := 0, losses := 0, closedTrades := 0 }

/-- A sell of 5 @ 10 on `"A"`: fully consumes, P&L exactly 0. -/
def breakEvenSell : NormalizedOrder :=
  { symbol := "A", side := SpotSide.sell, qty := 5, fillPrice := 10, ts := 9 }

/-- A well-formed raw order document: non-empty symbol, side lowercasing to
`"buy"`, positive quantity and fill price, explicit timestamp. -/
def validDoc : RawOrderDoc :=
  { id := "d1", symbol := some ("AAPL"), side := some ("Buy"),
    qty := some 2, fillPrice := some 100, ts := some 5 }

/-- Well-formedness of a stored write-side lot list: every quantity exceeds
`FIFO_EPSILON` and has six decimals, every price is six-decimal rounded, and
the list is sorted by acquisition timestamp. -/
def WFLots (L : List FifoLotDoc) : Prop :=
  (∀ lot ∈ L, FIFO_EPSILON < lot.qty ∧ IsDec6 lot.qty ∧ round6 lot.price = lot.price) ∧
    List.Sorted lotLE L

/-- Every lot quantity of the list is a positive whole number. -/
def IntLots (L : List FifoLotDoc) : Prop := ∀ lot ∈ L, IsPosInt lot.qty


/-- The aggregate entry written for the fill's symbol by one `aggStep`
iteration (the updated or freshly created `AggregatedPosition`). -/
def aggEntry (a : List (String × AggregatedPosition)) (o : NormalizedOrder) :
    AggregatedPosition :=
  let agg := match getA a o.symbol with
    | some g => g
    | none => { symbol := o.symbol, lots := [], totalQty := 0, avgPrice := 0 }
  match o.side with
  | SpotSide.buy =>
    { agg with
      lots := agg.lots ++ [{ qty := o.qty, price := o.fillPrice, ts := o.ts }]
      totalQty := agg.totalQty + o.qty }
  | SpotSide.sell =>
    { agg with
      lots := (aggSellMap o.qty agg.lots).filter
        (fun lot => decide (STATS_EPSILON < lot.qty))
      totalQty := max 0 (agg.totalQty - o.qty) }

/- ------------------------------------------------------------------ -/
/- Numeric groundwork.                                                 -/
/- ------------------------------------------------------------------ -/

theorem jsRound_eq_round (x : ℚ) : jsRound x = round x := by
  rw [round_eq, jsRound]
  have hden : (x.den : ℚ) ≠ 0 := Nat.cast_ne_zero.mpr x.den_nz
  have hnum : x * (x.den : ℚ) = (x.num : ℚ) := by
    nth_rewrite 1 [← Rat.num_div_den x]
    rw [div_mul_cancel₀ _ hden]
  have hx : x + 1 / 2 = ((2 * x.num + (x.den : ℤ) : ℤ) : ℚ) / (((2 * x.den : ℕ) : ℕ) : ℚ) := by
    have h2 : (((2 * x.den : ℕ) : ℕ) : ℚ) = 2 * (x.den : ℚ) := by push_cast; ring
    rw [h2, eq_div_iff (mul_ne_zero two_ne_zero hden)]
    push_cast
    linear_combination 2 * hnum
  rw [hx, Rat.floor_intCast_div_natCast]
  push_cast
  rfl

theorem round6_eq (x : ℚ) : round6 x = ((round (x * 1000000) : ℤ) : ℚ) / 1000000 := by
  rw [round6, jsRound_eq_round]

theorem round6_mul (x : ℚ) : round6 x * 1000000 = ((round (x * 1000000) : ℤ) : ℚ) := by
  rw [round6_eq, div_mul_cancel₀]
  norm_num

theorem isDec6_round6 (x : ℚ) : IsDec6 (round6 x) := by
  unfold IsDec6
  rw [round6_mul]
  exact Rat.den_intCast _

theorem round6_eq_self {x : ℚ} (h : IsDec6 x) : round6 x = x := by
  unfold IsDec6 at h
  have hx : ((x * 1000000).num : ℚ) = x * 1000000 := (Rat.den_eq_one_iff _).mp h
  have h6 : (1000000 : ℚ) ≠ 0 := by norm_num
  rw [round6_eq, ← hx, round_intCast, hx, mul_div_cancel_right₀ _ h6]

theorem isDec6_intCast (n : ℤ) : IsDec6 ((n : ℚ)) := by
  unfold IsDec6
  have h : ((n : ℚ)) * 1000000 = ((n * 1000000 : ℤ) : ℚ) := by push_cast; ring
  rw [h]
  exact Rat.den_intCast _

theorem round6_intCast (n : ℤ) : round6 ((n : ℚ)) = n := round6_eq_self (isDec6_intCast n)

theorem round6_zero : round6 0 = 0 := by
  have h := round6_intCast 0
  simpa using h

theorem isPosInt_iff {x : ℚ} : IsPosInt x ↔ ∃ n : ℕ, 0 < n ∧ x = (n : ℚ) := by
  constructor
  · rintro ⟨hden, hpos⟩
    have hx : (x.num : ℚ) = x := (Rat.den_eq_one_iff x).mp hden
    have hnum : 0 < x.num := Rat.num_pos.mpr hpos
    refine ⟨x.num.toNat, by omega, ?_⟩
    rw [← hx]
    norm_cast
    omega
  · rintro ⟨n, hn, rfl⟩
    exact ⟨Rat.den_natCast n, by exact_mod_cast hn⟩

theorem IsPosInt.one_le {x : ℚ} (h : IsPosInt x) : 1 ≤ x := by
  obtain ⟨n, hn, rfl⟩ := isPosInt_iff.mp h
  exact_mod_cast hn

theorem IsPosInt.isDec6 {x : ℚ} (h : IsPosInt x) : IsDec6 x := by
  obtain ⟨n, _, rfl⟩ := isPosInt_iff.mp h
  exact_mod_cast isDec6_intCast (n : ℤ)

theorem IsPosInt.fifoEps_lt {x : ℚ} (h : IsPosInt x) : FIFO_EPSILON < x :=
  lt_of_lt_of_le (by norm_num [FIFO_EPSILON]) h.one_le

theorem IsPosInt.statsEps_lt {x : ℚ} (h : IsPosInt x) : STATS_EPSILON < x :=
  lt_of_lt_of_le (by norm_num [STATS_EPSILON]) h.one_le

theorem IsPosInt.round6_fix {x : ℚ} (h : IsPosInt x) : round6 x = x :=
  round6_eq_self h.isDec6

theorem IsPosInt.sub {x y : ℚ} (hx : IsPosInt x) (hy : IsPosInt y) (hlt : y < x) :
    IsPosInt (x - y) := by
  obtain ⟨n, hn, rfl⟩ := isPosInt_iff.mp hx
  obtain ⟨k, hk, rfl⟩ := isPosInt_iff.mp hy
  have hkn : k < n := by exact_mod_cast hlt
  refine isPosInt_iff.mpr ⟨n - k, by omega, ?_⟩
  push_cast [Nat.cast_sub hkn.le]
  ring

theorem round6_sub_le {a c : ℚ} (ha : IsDec6 a) (hc : 0 < c) : round6 (a - c) ≤ a := by
  unfold IsDec6 at ha
  have hN : ((a * 1000000).num : ℚ) = a * 1000000 := (Rat.den_eq_one_iff _).mp ha
  have hfloor : round ((a - c) * 1000000) ≤ (a * 1000000).num := by
    rw [round_eq]
    have hlt : (a - c) * 1000000 + 1 / 2 < (((a * 1000000).num + 1 : ℤ) : ℚ) := by
      push_cast
      rw [hN]
      nlinarith
    have h2 : (⌊(a - c) * 1000000 + 1 / 2⌋ : ℤ) < (a * 1000000).num + 1 :=
      Int.floor_lt.mpr hlt
    omega
  have h6 : (0 : ℚ) < 1000000 := by norm_num
  calc round6 (a - c) = ((round ((a - c) * 1000000) : ℤ) : ℚ) / 1000000 := round6_eq _
    _ ≤ (((a * 1000000).num : ℤ) : ℚ) / 1000000 := by
        have hcast : ((round ((a - c) * 1000000) : ℤ) : ℚ) ≤ (((a * 1000000).num : ℤ) : ℚ) := by
          exact_mod_cast hfloor
        exact (div_le_div_iff_of_pos_right h6).mpr hcast
    _ = a := by rw [hN]; field_simp

/- ------------------------------------------------------------------ -/
/- Association-list and sorting groundwork.                            -/
/- ------------------------------------------------------------------ -/

theorem getA_setA_self {β : Type} (m : List (String × β)) (k : String) (v : β) :
    getA (setA m k v) k = some v := by
  induction m with
  | nil => simp [setA, getA]
  | cons kv rest ih =>
    by_cases h : kv.1 = k
    · simp [setA, getA, h]
    · simp [setA, getA, h, ih]

theorem getA_setA_ne {β : Type} (m : List (String × β)) (k k' : String) (v : β)
    (h : k ≠ k') : getA (setA m k v) k' = getA m k' := by
  induction m with
  | nil => simp [setA, getA, h]
  | cons kv rest ih =>
    by_cases hk : kv.1 = k
    · subst hk
      simp [setA, getA, h]
    · have h2 : ¬ (k' = k) := fun he => h he.symm
      by_cases hk' : kv.1 = k'
      · simp [setA, getA, hk, hk', h2]
      · simp [setA, getA, hk, hk', h2, ih]

theorem map_eq_self_of {α : Type} {f : α → α} {l : List α} (h : ∀ x ∈ l, f x = x) :
    l.map f = l := by
  induction l with
  | nil => rfl
  | cons a rest ih =>
    simp only [List.map_cons, h a (List.mem_cons_self a rest)]
    rw [ih (fun x hx => h x (List.mem_cons_of_mem a hx))]

theorem sumQ_nil : sumQ [] = 0 := rfl

theorem sumQ_cons (a : FifoLotDoc) (l : List FifoLotDoc) :
    sumQ (a :: l) = a.qty + sumQ l := by
  simp [sumQ]

theorem sumQ_append (l₁ l₂ : List FifoLotDoc) : sumQ (l₁ ++ l₂) = sumQ l₁ + sumQ l₂ := by
  simp [sumQ]

theorem sumQ_nonneg {L : List FifoLotDoc} (h : ∀ lot ∈ L, 0 ≤ lot.qty) : 0 ≤ sumQ L := by
  induction L with
  | nil => simp [sumQ]
  | cons a rest ih =>
    rw [sumQ_cons]
    have ha := h a (List.mem_cons_self a rest)
    have hr := ih (fun x hx => h x (List.mem_cons_of_mem a hx))
    linarith

theorem mem_normalizeFifoLots {raw : List FifoLotDoc} {lot : FifoLotDoc}
    (h : lot ∈ normalizeFifoLots raw) : FIFO_EPSILON < lot.qty := by
  unfold normalizeFifoLots at h
  rw [List.mem_insertionSort] at h
  have := List.of_mem_filter h
  exact of_decide_eq_true this

theorem sorted_normalizeFifoLots (raw : List FifoLotDoc) :
    List.Sorted lotLE (normalizeFifoLots raw) :=
  List.sorted_insertionSort lotLE _

theorem normalizeFifoLots_eq_self {L : List FifoLotDoc} (h : WFLots L) :
    normalizeFifoLots L = L := by
  unfold normalizeFifoLots
  have hf : L.filter (fun lot => decide (FIFO_EPSILON < lot.qty)) = L :=
    List.filter_eq_self.mpr (fun a ha => decide_eq_true (h.1 a ha).1)
  rw [hf]
  exact h.2.insertionSort_eq

/- ------------------------------------------------------------------ -/
/- C1: overselling rejects the whole mutation.                          -/
/- ------------------------------------------------------------------ -/

theorem fifoSellLoop_oversell (L : List FifoLotDoc) :
    ∀ r : ℚ, (∀ lot ∈ L, 0 ≤ lot.qty) → sumQ L + FIFO_EPSILON < r →
      (fifoSellLoop r L).2 = r - sumQ L := by
  induction L with
  | nil =>
    intro r _ _
    simp [fifoSellLoop, sumQ]
  | cons a rest ih =>
    intro r h0 hover
    have ha : 0 ≤ a.qty := h0 a (List.mem_cons_self a rest)
    have hrest : ∀ lot ∈ rest, 0 ≤ lot.qty := fun x hx => h0 x (List.mem_cons_of_mem a hx)
    have hsum : 0 ≤ sumQ rest := sumQ_nonneg hrest
    rw [sumQ_cons] at hover
    have heps : (0 : ℚ) < FIFO_EPSILON := by norm_num [FIFO_EPSILON]
    have hgt : FIFO_EPSILON < r := by linarith
    have hle : a.qty ≤ r := by linarith
    have hmin : min a.qty r = a.qty := min_eq_left hle
    rw [fifoSellLoop, if_neg (not_le.mpr hgt)]
    simp only [hmin]
    have hleft : ¬ FIFO_EPSILON < a.qty - a.qty := by
      rw [sub_self]
      exact not_lt.mpr heps.le
    rw [if_neg hleft]
    have := ih (r - a.qty) hrest (by linarith)
    rw [this, sumQ_cons]
    ring

theorem computeFifoPositionPayload_oversell {snapshotLots : List FifoLotDoc}
    {symbol : String} {qty price : ℚ} {ts : ℤ}
    (hover : sumQ (normalizeFifoLots snapshotLots) + FIFO_EPSILON < qty) :
    computeFifoPositionPayload snapshotLots symbol SpotSide.sell qty price ts =
      Except.error ("Insufficient FIFO lots to settle sell order.") := by
  have h0 : ∀ lot ∈ normalizeFifoLots snapshotLots, 0 ≤ lot.qty := fun lot h =>
    le_of_lt (lt_trans (by norm_num [FIFO_EPSILON]) (mem_normalizeFifoLots h))
  have hrem := fifoSellLoop_oversell (normalizeFifoLots snapshotLots) qty h0 hover
  unfold computeFifoPositionPayload
  simp only [hrem]
  rw [if_pos (by linarith)]

/-- C1: for every prior account state and every sell fill whose quantity
exceeds the total quantity held in the symbol's (normalized) lots by more
than `FIFO_EPSILON = 1e-9`, both `computeFifoPositionPayload` and the whole
`submitSpotOrder` transaction fail with the overselling error.  In the
embedding an `Except.error` result carries no successor state: rejecting the
transaction leaves cash, the lot lists and the order log untouched, with no
partial write. -/
theorem submitSpotOrder_oversell_rejected (st : AccountState) (p : SpotOrderParams)
    (hside : p.side = SpotSide.sell) (hprice : 0 < p.fillPrice)
    (hover : sumQ (normalizeFifoLots (getPositionLots st p.symbol)) + FIFO_EPSILON < p.qty) :
    computeFifoPositionPayload (getPositionLots st p.symbol) p.symbol p.side
        p.qty p.fillPrice p.lotTimestamp =
      Except.error ("Insufficient FIFO lots to settle sell order.") ∧
    submitSpotOrder st p = Except.error ("Insufficient FIFO lots to settle sell order.") := by
  have h0 : ∀ lot ∈ normalizeFifoLots (getPositionLots st p.symbol), 0 ≤ lot.qty :=
    fun lot h => le_of_lt (lt_trans (by norm_num [FIFO_EPSILON]) (mem_normalizeFifoLots h))
  have hq : 0 < p.qty := by
    have := sumQ_nonneg h0
    have heps : (0 : ℚ) < FIFO_EPSILON := by norm_num [FIFO_EPSILON]
    linarith
  have herr := @computeFifoPositionPayload_oversell (getPositionLots st p.symbol)
    p.symbol p.qty p.fillPrice p.lotTimestamp hover
  refine ⟨by rw [hside]; exact herr, ?_⟩
  unfold submitSpotOrder
  rw [if_neg (not_le.mpr hq), if_neg (not_le.mpr hprice), hside]
  simp only [herr]

/-- Witness for C1: selling 5 units with zero lots held is rejected. -/
theorem submitSpotOrder_oversell_rejected_witness :
    oversellParams.side = SpotSide.sell ∧ 0 < oversellParams.fillPrice ∧
    sumQ (normalizeFifoLots (getPositionLots emptyState oversellParams.symbol)) +
        FIFO_EPSILON < oversellParams.qty ∧
    submitSpotOrder emptyState oversellParams =
      Except.error ("Insufficient FIFO lots to settle sell order.") :=
  ⟨by decide!, by decide!, by decide!,
    (submitSpotOrder_oversell_rejected emptyState oversellParams (by decide!) (by decide!)
      (by decide!)).2⟩

/- ------------------------------------------------------------------ -/
/- C9: six-decimal rounding is idempotent.                             -/
/- ------------------------------------------------------------------ -/

/-- C9: `round6 (round6 x) = round6 x` for every rational input. -/
theorem round6_idempotent (x : ℚ) : round6 (round6 x) = round6 x :=
  round6_eq_self (isDec6_round6 x)

/- ------------------------------------------------------------------ -/
/- C10: buys carry no cash-sufficiency precondition.                   -/
/- ------------------------------------------------------------------ -/

theorem setCash_cash (user : Option UserDoc) (c : ℚ) : (setCash user c).cash = some c := by
  cases user <;> rfl

/-- C10: for every prior account state and every positive buy fill,
`submitSpotOrder` commits: it stores `round6(base - qty * fillPrice)` as the
new cash (where the base balance is the stored cash, falling back to
`initialCredits` and then to `DEFAULT_INITIAL_CASH = 1_000_000`) and appends
the order record — with no cash-sufficiency check, so the committed balance
may be negative. -/
theorem submitSpotOrder_buy_no_cash_precondition (st : AccountState) (p : SpotOrderParams)
    (hq : 0 < p.qty) (hp : 0 < p.fillPrice) (hside : p.side = SpotSide.buy) :
    ∃ st', submitSpotOrder st p = Except.ok st' ∧
      cashOf st' = some (round6 (cashBase st.user DEFAULT_INITIAL_CASH -
        p.qty * p.fillPrice)) ∧
      st'.orders = st.orders ++
        [{ symbol := p.symbol, side := p.side, qty := p.qty, type := p.type,
           status := "filled", fillPrice := p.fillPrice }] := by
  unfold submitSpotOrder
  rw [if_neg (not_le.mpr hq), if_neg (not_le.mpr hp), hside]
  simp only [computeFifoPositionPayload]
  refine ⟨_, rfl, ?_, rfl⟩
  simp only [cashOf, setCash_cash, computeCashAfterDelta]
  congr 2
  rw [if_pos trivial]
  ring

/-- Witness for C10: buying 1 @ 200 with only 100 cash commits and leaves a
negative balance of -100. -/
theorem submitSpotOrder_buy_no_cash_precondition_witness :
    0 < bigBuyParams.qty ∧ 0 < bigBuyParams.fillPrice ∧
    (∃ st', submitSpotOrder lowCashState bigBuyParams = Except.ok st' ∧
      cashOf st' = some (round6 (cashBase lowCashState.user DEFAULT_INITIAL_CASH -
        bigBuyParams.qty * bigBuyParams.fillPrice)) ∧
      st'.orders = lowCashState.orders ++
        [{ symbol := bigBuyParams.symbol, side := bigBuyParams.side,
           qty := bigBuyParams.qty, type := bigBuyParams.type,
           status := "filled", fillPrice := bigBuyParams.fillPrice }]) ∧
    round6 (cashBase lowCashState.user DEFAULT_INITIAL_CASH -
      bigBuyParams.qty * bigBuyParams.fillPrice) < 0 :=
  ⟨by decide!, by decide!,
    submitSpotOrder_buy_no_cash_precondition lowCashState bigBuyParams (by decide!)
      (by decide!) (by decide!),
    by decide!⟩

/- ------------------------------------------------------------------ -/
/- C7: ROI guard and the empty-history aggregate.                      -/
/- ------------------------------------------------------------------ -/

/-- C7: `computeBotStats` always returns
`roi = (totalValue - initialCredits) / initialCredits` when `initialCredits`
exceeds `STATS_EPSILON` and `roi = 0` otherwise (a total function, never an
exception); `winRate` is `0` whenever no closed trades exist; and for
`initialCredits = totalValue = 1_000_000` with no fills it returns
`pnl = 0`, `roi = 0`, `tradesCount = 0` and `winRate = 0`. -/
theorem computeBotStats_roi_guard_and_empty :
    (∀ ic tv : ℚ, ∀ os : List NormalizedOrder,
      (computeBotStats ic tv os).roi = if STATS_EPSILON < ic then (tv - ic) / ic else 0) ∧
    (∀ ic tv : ℚ, ∀ os : List NormalizedOrder,
      (computeBotStats ic tv os).closedTrades = 0 → (computeBotStats ic tv os).winRate = 0) ∧
    computeBotStats 1000000 1000000 [] =
      { tradesCount := 0, pnl := 0, roi := 0, realizedPnl := 0, wins := 0, losses := 0,
        winRate := 0, closedTrades := 0 } := by
  refine ⟨fun ic tv os => rfl, fun ic tv os h => ?_, by decide!⟩
  unfold computeBotStats at h ⊢
  simp only at h ⊢
  rw [if_neg]
  omega

/-- Witness for C7: the empty history has no closed trades and win rate 0. -/
theorem computeBotStats_roi_guard_and_empty_witness :
    (computeBotStats 1000000 1000000 []).closedTrades = 0 ∧
    (computeBotStats 1000000 1000000 []).winRate = 0 :=
  ⟨by decide!, computeBotStats_roi_guard_and_empty.2.1 1000000 1000000 [] (by decide!)⟩

/- ------------------------------------------------------------------ -/
/- C6: closed-trade counting and the win/loss epsilon boundary.         -/
/- ------------------------------------------------------------------ -/

/-- C6: in `computeBotStats`, a sell order that fully consumes against the
book available at its point in the replay (final `remaining ≤ STATS_EPSILON`)
contributes exactly one closed trade; it counts as a win exactly when the
order's P&L exceeds `STATS_EPSILON = 1e-6`, as a loss exactly when it is
below `-STATS_EPSILON`, and when the P&L lies within `±STATS_EPSILON`
(boundary included) it increments `closedTrades` but neither `wins` nor
`losses`. -/
theorem statsStep_closed_trade_win_loss (acc : BotStatsAcc) (order : NormalizedOrder)
    (hside : order.side = SpotSide.sell)
    (hfull : (statsSellLoop order.fillPrice (getBook acc.books order.symbol)
      order.qty 0).2.1 ≤ STATS_EPSILON) :
    (statsStep acc order).closedTrades = acc.closedTrades + 1 ∧
    (statsStep acc order).wins =
      (if STATS_EPSILON < (statsSellLoop order.fillPrice (getBook acc.books order.symbol)
        order.qty 0).2.2 then acc.wins + 1 else acc.wins) ∧
    (statsStep acc order).losses =
      (if (statsSellLoop order.fillPrice (getBook acc.books order.symbol)
        order.qty 0).2.2 < -STATS_EPSILON then acc.losses + 1 else acc.losses) := by
  unfold statsStep
  rw [hside]
  simp only [if_pos hfull]
  refine ⟨by simp, by simp, ?_⟩
  by_cases hw : STATS_EPSILON <
      (statsSellLoop order.fillPrice (getBook acc.books order.symbol) order.qty 0).2.2
  · have hno : ¬ (statsSellLoop order.fillPrice (getBook acc.books order.symbol)
        order.qty 0).2.2 < -STATS_EPSILON := by
      have heps : (0 : ℚ) < STATS_EPSILON := by norm_num [STATS_EPSILON]
      push_neg
      linarith
    simp only [if_pos hw, if_neg hno]
  · simp only [if_neg hw]

/-- Witness for C6: a 5 @ 10 sell against a 5 @ 10 lot fully consumes with
P&L exactly 0: one more closed trade, no win, no loss. -/
theorem statsStep_closed_trade_win_loss_witness :
    breakEvenSell.side = SpotSide.sell ∧
    (statsSellLoop breakEvenSell.fillPrice (getBook exampleAcc.books breakEvenSell.symbol)
      breakEvenSell.qty 0).2.1 ≤ STATS_EPSILON ∧
    (statsStep exampleAcc breakEvenSell).closedTrades = exampleAcc.closedTrades + 1 ∧
    (statsStep exampleAcc breakEvenSell).wins =
      (if STATS_EPSILON < (statsSellLoop breakEvenSell.fillPrice
        (getBook exampleAcc.books breakEvenSell.symbol) breakEvenSell.qty 0).2.2
        then exampleAcc.wins + 1 else exampleAcc.wins) ∧
    (statsStep exampleAcc breakEvenSell).losses =
      (if (statsSellLoop breakEvenSell.fillPrice
        (getBook exampleAcc.books breakEvenSell.symbol) breakEvenSell.qty 0).2.2 <
          -STATS_EPSILON
        then exampleAcc.losses + 1 else exampleAcc.losses) := by
  refine ⟨by decide!, by decide!, ?_⟩
  exact statsStep_closed_trade_win_loss exampleAcc breakEvenSell (by decide!) (by decide!)

/- ------------------------------------------------------------------ -/
/- C8: the order normalizer drops malformed records and sorts.          -/
/- ------------------------------------------------------------------ -/

/-- C8: `normalizeOrders` is a total function (in the embedding it cannot
throw): its output is sorted ascending by timestamp; a raw record survives
normalization exactly when its symbol (after falling back to the document id
when the field is not a string) is non-empty, its side lowercases to exactly
`"buy"` or `"sell"`, and its quantity and fill price are present, numeric,
finite and strictly above `STATS_EPSILON = 1e-6`; and a record of a document
list appears in the output exactly when it survives normalization.  All
other records are dropped without error. -/
theorem normalizeOrders_sorted_and_drops :
    (∀ now : ℤ, ∀ docs : List RawOrderDoc,
      List.Sorted ordLE (normalizeOrders now docs)) ∧
    (∀ now : ℤ, ∀ d : RawOrderDoc,
      (normalizeOrderDoc now d).isSome ↔
        ((match d.symbol with | some s => s | none => d.id) ≠ "" ∧
         (∃ s, d.side = some s ∧ (lowerString s = "buy" ∨ lowerString s = "sell")) ∧
         (∃ q, d.qty = some q ∧ STATS_EPSILON < q) ∧
         (∃ fp, d.fillPrice = some fp ∧ STATS_EPSILON < fp))) ∧
    (∀ now : ℤ, ∀ docs : List RawOrderDoc, ∀ d ∈ docs,
      ((normalizeOrderDoc now d).isSome ↔
        ∃ o ∈ normalizeOrders now docs, normalizeOrderDoc now d = some o)) := by
  refine ⟨fun now docs => List.sorted_insertionSort ordLE _, ?_, ?_⟩
  · intro now d
    obtain ⟨id, symbol, side, qty, fp, ts⟩ := d
    cases side with
    | none =>
      simp only [normalizeOrderDoc]
      rw [if_pos (Or.inr (by decide))]
      simp
    | some s =>
      by_cases hbuy : lowerString s = "buy"
      · cases qty with
        | none =>
          simp only [normalizeOrderDoc, hbuy]
          by_cases hsym : (match symbol with | some s => s | none => id) = ""
          · rw [if_pos (Or.inl hsym)]
            simp [hsym]
          · rw [if_neg (by simp [hsym, hbuy])]
            simp
        | some q =>
          cases fp with
          | none =>
            simp only [normalizeOrderDoc, hbuy]
            by_cases hsym : (match symbol with | some s => s | none => id) = ""
            · rw [if_pos (Or.inl hsym)]
              simp [hsym]
            · rw [if_neg (by simp [hsym, hbuy])]
              simp
          | some p =>
            simp only [normalizeOrderDoc, hbuy]
            by_cases hsym : (match symbol with | some s => s | none => id) = ""
            · rw [if_pos (Or.inl hsym)]
              simp [hsym]
            · rw [if_neg (by simp [hsym, hbuy])]
              by_cases hq : q ≤ STATS_EPSILON
              · rw [if_pos (Or.inl hq)]
                simp [hsym, hbuy, hq, not_lt.mpr hq]
              · by_cases hp : p ≤ STATS_EPSILON
                · rw [if_pos (Or.inr hp)]
                  simp [hsym, hbuy, hq, hp, not_lt.mpr hp]
                · rw [if_neg (by push_neg; exact ⟨not_le.mp hq, not_le.mp hp⟩)]
                  simp [hsym, hbuy, not_le.mp hq, not_le.mp hp]
      · by_cases hsell : lowerString s = "sell"
        · cases qty with
          | none =>
            simp only [normalizeOrderDoc, hbuy, hsell]
            by_cases hsym : (match symbol with | some s => s | none => id) = ""
            · rw [if_pos (Or.inl hsym)]
              simp [hsym]
            · rw [if_neg (by simp [hsym, hbuy, hsell])]
              simp
          | some q =>
            cases fp with
            | none =>
              simp only [normalizeOrderDoc, hbuy, hsell]
              by_cases hsym : (match symbol with | some s => s | none => id) = ""
              · rw [if_pos (Or.inl hsym)]
                simp [hsym]
              · rw [if_neg (by simp [hsym, hbuy, hsell])]
                simp
            | some p =>
              simp only [normalizeOrderDoc, hbuy, hsell]
              by_cases hsym : (match symbol with | some s => s | none => id) = ""
              · rw [if_pos (Or.inl hsym)]
                simp [hsym]
              · rw [if_neg (by simp [hsym, hbuy, hsell])]
                by_cases hq : q ≤ STATS_EPSILON
                · rw [if_pos (Or.inl hq)]
                  simp [hsym, hsell, hq, not_lt.mpr hq]
                · by_cases hp : p ≤ STATS_EPSILON
                  · rw [if_pos (Or.inr hp)]
                    simp [hsym, hsell, hq, hp, not_lt.mpr hp]
                  · rw [if_neg (by push_neg; exact ⟨not_le.mp hq, not_le.mp hp⟩)]
                    simp [hsym, hsell, not_le.mp hq, not_le.mp hp]
        · simp only [normalizeOrderDoc]
          rw [if_pos (Or.inr ⟨hbuy, hsell⟩)]
          simp [hbuy, hsell]
  · intro now docs d hd
    constructor
    · intro hsome
      obtain ⟨o, ho⟩ := Option.isSome_iff_exists.mp hsome
      refine ⟨o, ?_, ho⟩
      unfold normalizeOrders
      rw [List.mem_insertionSort]
      exact List.mem_filterMap.mpr ⟨d, hd, ho⟩
    · rintro ⟨o, _, ho⟩
      rw [ho]
      rfl

/-- Witness for C8: a singleton list holding one well-formed document, and
the membership hypothesis of the third conjunct discharged at it. -/
theorem normalizeOrders_sorted_and_drops_witness :
    List.Sorted ordLE (normalizeOrders 0 [validDoc]) ∧
    ((normalizeOrderDoc 0 validDoc).isSome ↔
      ∃ o ∈ normalizeOrders 0 [validDoc], normalizeOrderDoc 0 validDoc = some o) :=
  ⟨normalizeOrders_sorted_and_drops.1 0 [validDoc],
   normalizeOrders_sorted_and_drops.2.2 0 [validDoc] validDoc (by decide!)⟩

/- ------------------------------------------------------------------ -/
/- C3: the worked FIFO example.                                        -/
/- ------------------------------------------------------------------ -/

/-- C3: for the fills buy 10 @ 100 (t=1), buy 5 @ 110 (t=2),
sell 12 @ 120 (t=3), the incremental write-side ledger leaves exactly the
open lot `{qty: 3, price: 110}` (acquired at t=2), and
`buildClosedTradeEntries` emits exactly
`[{qty: 10, buy: 100, sell: 120, pnl: 200}, {qty: 2, buy: 110, sell: 120,
pnl: 20}]` in that order. -/
theorem fifo_example_lots_and_closed_entries :
    foldLotsAt exampleFills ("AAPL") = [{ qty := 3, price := 110, ts := 2 }] ∧
    buildClosedTradeEntries exampleFills =
      [{ symbol := "AAPL", qty := 10, buyPrice := 100, sellPrice := 120,
         buyTs := 1, sellTs := 3, pnl := 200 },
       { symbol := "AAPL", qty := 2, buyPrice := 110, sellPrice := 120,
         buyTs := 2, sellTs := 3, pnl := 20 }] := by
  constructor
  · decide!
  · decide!

/- ------------------------------------------------------------------ -/
/- C4: sells consume strictly from the oldest lots.                    -/
/- ------------------------------------------------------------------ -/

theorem WFLots_nil : WFLots [] :=
  ⟨fun lot h => absurd h (List.not_mem_nil lot), List.sorted_nil⟩

theorem mem_of_mem_normalizeFifoLots {raw : List FifoLotDoc} {lot : FifoLotDoc}
    (h : lot ∈ normalizeFifoLots raw) : lot ∈ raw := by
  unfold normalizeFifoLots at h
  rw [List.mem_insertionSort] at h
  exact List.mem_of_mem_filter h

theorem wf_finalizeLots {X : List FifoLotDoc} (h6 : ∀ lot ∈ X, IsDec6 lot.qty) :
    WFLots (finalizeLots X) := by
  constructor
  · intro lot hl
    unfold finalizeLots at hl
    rw [List.mem_insertionSort] at hl
    obtain ⟨y, hy, rfl⟩ := List.mem_map.mp hl
    have hql : FIFO_EPSILON < y.qty := of_decide_eq_true (List.mem_filter.mp hy).2
    have hyx : y ∈ X := (List.mem_filter.mp hy).1
    refine ⟨?_, isDec6_round6 _, round6_idempotent _⟩
    show FIFO_EPSILON < round6 y.qty
    rw [round6_eq_self (h6 y hyx)]
    exact hql
  · exact List.sorted_insertionSort lotLE _

theorem wf_applyBuy {L : List FifoLotDoc} (h : WFLots L) (q p : ℚ) (t : ℤ) :
    WFLots (applyBuy L q p t) := by
  apply wf_finalizeLots
  intro lot hl
  rcases List.mem_append.mp hl with h1 | h2
  · exact (h.1 lot (mem_of_mem_normalizeFifoLots h1)).2.1
  · rw [List.mem_singleton.mp h2]
    exact isDec6_round6 q

theorem wf_buyFold_aux (bs : List (ℚ × ℚ × ℤ)) :
    ∀ L : List FifoLotDoc, WFLots L →
      WFLots (bs.foldl (fun acc b => applyBuy acc b.1 b.2.1 b.2.2) L) := by
  induction bs with
  | nil => intro L h; exact h
  | cons b rest ih =>
    intro L h
    exact ih _ (wf_applyBuy h b.1 b.2.1 b.2.2)

theorem wf_buyFold (buys : List (ℚ × ℚ × ℤ)) : WFLots (buyFold buys) :=
  wf_buyFold_aux buys [] WFLots_nil

theorem finalizeLots_eq_self {L : List FifoLotDoc} (h : WFLots L) : finalizeLots L = L := by
  unfold finalizeLots
  have hf : L.filter (fun lot => decide (FIFO_EPSILON < lot.qty)) = L :=
    List.filter_eq_self.mpr (fun a ha => decide_eq_true (h.1 a ha).1)
  rw [hf]
  have hm : L.map (fun lot => { lot with qty := round6 lot.qty, price := round6 lot.price }) = L := by
    apply map_eq_self_of
    intro x hx
    obtain ⟨-, hdec, hpr⟩ := h.1 x hx
    cases x
    simp_all [round6_eq_self hdec]
  rw [hm]
  exact h.2.insertionSort_eq

theorem wf_drop {L : List FifoLotDoc} (h : WFLots L) (n : ℕ) : WFLots (L.drop n) :=
  ⟨fun lot hl => h.1 lot (List.drop_subset n L hl),
   List.Pairwise.sublist (List.drop_sublist n L) h.2⟩

theorem fifoSellLoop_skip (M : List FifoLotDoc) :
    ∀ r : ℚ, r ≤ FIFO_EPSILON → fifoSellLoop r M = (M, r) := by
  induction M with
  | nil => intro r _; rfl
  | cons lot rest ih =>
    intro r hr
    rw [fifoSellLoop, if_pos hr, ih r hr]

theorem fifoSellLoop_suffix (L : List FifoLotDoc) :
    (∀ lot ∈ L, FIFO_EPSILON < lot.qty ∧ IsDec6 lot.qty) →
    ∀ r : ℚ, 0 ≤ r → r ≤ sumQ L →
      (fifoSellLoop r L).2 ≤ FIFO_EPSILON ∧
      ∃ n, ((fifoSellLoop r L).1 = L.drop n ∨
        ∃ q a rest, L.drop n = a :: rest ∧ q ≤ a.qty ∧ IsDec6 q ∧
          (fifoSellLoop r L).1 = { a with qty := q } :: rest) := by
  induction L with
  | nil =>
    intro _ r h0 hle
    rw [sumQ_nil] at hle
    have hr : r = 0 := le_antisymm hle h0
    subst hr
    exact ⟨by norm_num [fifoSellLoop, FIFO_EPSILON], 0, Or.inl rfl⟩
  | cons a rest ih =>
    intro hL r h0 hle
    have ha := hL a (List.mem_cons_self a rest)
    have hrest : ∀ lot ∈ rest, FIFO_EPSILON < lot.qty ∧ IsDec6 lot.qty :=
      fun x hx => hL x (List.mem_cons_of_mem a hx)
    rw [sumQ_cons] at hle
    by_cases hre : r ≤ FIFO_EPSILON
    · rw [fifoSellLoop, if_pos hre, fifoSellLoop_skip rest r hre]
      exact ⟨hre, 0, Or.inl rfl⟩
    · have heps : (0 : ℚ) ≤ FIFO_EPSILON := by norm_num [FIFO_EPSILON]
      by_cases har : a.qty ≤ r
      · have hmin : min a.qty r = a.qty := min_eq_left har
        have hleft : ¬ FIFO_EPSILON < a.qty - a.qty := by
          rw [sub_self]; exact not_lt.mpr heps
        rw [fifoSellLoop, if_neg hre]
        simp only [hmin, if_neg hleft]
        have hrest_sum : 0 ≤ sumQ rest :=
          sumQ_nonneg (fun x hx => le_of_lt (lt_of_le_of_lt heps (hrest x hx).1))
        obtain ⟨h2, n, hshape⟩ := ih hrest (r - a.qty) (by linarith) (by linarith)
        refine ⟨h2, n + 1, ?_⟩
        rw [List.drop_succ_cons]
        exact hshape
      · have hra : r < a.qty := not_le.mp har
        have hmin : min a.qty r = r := min_eq_right hra.le
        have hz : r - r = 0 := sub_self r
        rw [fifoSellLoop, if_neg hre]
        simp only [hmin, hz]
        rw [fifoSellLoop_skip rest 0 heps]
        by_cases hlo : FIFO_EPSILON < a.qty - r
        · rw [if_pos hlo]
          refine ⟨heps, 0, Or.inr ⟨round6 (a.qty - r), a, rest, rfl, ?_, isDec6_round6 _, rfl⟩⟩
          exact round6_sub_le ha.2 (lt_of_le_of_lt heps (not_le.mp hre))
        · rw [if_neg hlo]
          exact ⟨heps, 1, Or.inl rfl⟩

theorem sorted_cons_qty {a : FifoLotDoc} {rest : List FifoLotDoc} {q : ℚ}
    (h : List.Sorted lotLE (a :: rest)) :
    List.Sorted lotLE ({ a with qty := q } :: rest) := by
  rw [List.sorted_cons] at h ⊢
  exact ⟨fun b hb => h.1 b hb, h.2⟩

/-- C4: after any sequence of buy fills (folded through the buy branch of
`computeFifoPositionPayload` from an empty lot list), a single sell whose
quantity is positive and strictly smaller than the total quantity held
succeeds, consumes lots strictly from the head of the list (oldest
acquisition timestamp first), and leaves a lot list that is a contiguous
suffix of the pre-sell list ordered by acquisition time, with at most its
first (oldest surviving) lot reduced in quantity. -/
theorem fifoSell_consumes_oldest_first (buys : List (ℚ × ℚ × ℤ)) (symbol : String)
    (q p : ℚ) (t : ℤ) (hq : 0 < q) (hlt : q < sumQ (buyFold buys)) :
    ∃ payload, computeFifoPositionPayload (buyFold buys) symbol SpotSide.sell q p t =
        Except.ok payload ∧
      IsReducedSuffix (buyFold buys) payload.lots ∧
      List.Sorted lotLE payload.lots := by
  have hWF : WFLots (buyFold buys) := wf_buyFold buys
  have hnorm : normalizeFifoLots (buyFold buys) = buyFold buys :=
    normalizeFifoLots_eq_self hWF
  obtain ⟨hrem, n, hshape⟩ := fifoSellLoop_suffix (buyFold buys)
    (fun lot hl => ⟨(hWF.1 lot hl).1, (hWF.1 lot hl).2.1⟩) q hq.le hlt.le
  simp only [computeFifoPositionPayload, hnorm]
  rw [if_neg (not_lt.mpr hrem)]
  refine ⟨_, rfl, ?_⟩
  simp only [mkPayload]
  rcases hshape with hdropform | ⟨q', a, rest, hdrop, hq'le, hq'dec, hmod⟩
  · rw [hdropform, finalizeLots_eq_self (wf_drop hWF n)]
    exact ⟨⟨n, Or.inl rfl⟩, (wf_drop hWF n).2⟩
  · have hwfd : WFLots ((buyFold buys).drop n) := wf_drop hWF n
    rw [hdrop] at hwfd
    have hwfrest : WFLots rest :=
      ⟨fun lot hl => hwfd.1 lot (List.mem_cons_of_mem a hl), hwfd.2.of_cons⟩
    rw [hmod]
    by_cases hq' : FIFO_EPSILON < q'
    · have hwfmod : WFLots ({ a with qty := q' } :: rest) := by
        refine ⟨?_, sorted_cons_qty hwfd.2⟩
        intro lot hl
        rcases List.mem_cons.mp hl with rfl | hl2
        · exact ⟨hq', hq'dec, (hwfd.1 a (List.mem_cons_self a rest)).2.2⟩
        · exact hwfd.1 lot (List.mem_cons_of_mem a hl2)
      rw [finalizeLots_eq_self hwfmod]
      exact ⟨⟨n, Or.inr ⟨q', a, rest, hdrop, hq'le, rfl⟩⟩, hwfmod.2⟩
    · have hfe : finalizeLots ({ a with qty := q' } :: rest) = rest := by
        unfold finalizeLots
        rw [List.filter_cons_of_neg (by simpa using hq')]
        have hf : rest.filter (fun lot => decide (FIFO_EPSILON < lot.qty)) = rest :=
          List.filter_eq_self.mpr (fun x hx => decide_eq_true (hwfrest.1 x hx).1)
        rw [hf]
        have hm : rest.map
            (fun lot => { lot with qty := round6 lot.qty, price := round6 lot.price }) = rest := by
          apply map_eq_self_of
          intro x hx
          obtain ⟨-, hdec, hpr⟩ := hwfrest.1 x hx
          cases x
          simp_all [round6_eq_self hdec]
        rw [hm]
        exact hwfrest.2.insertionSort_eq
      rw [hfe]
      have hdropn1 : (buyFold buys).drop (n + 1) = rest := by
        have : (buyFold buys).drop (n + 1) = ((buyFold buys).drop n).drop 1 := by
          rw [List.drop_drop]
        rw [this, hdrop]
        rfl
      exact ⟨⟨n + 1, Or.inl hdropn1.symm⟩, hwfrest.2⟩

/-- Witness for C4: two buys (10 @ 100 at t=1, 5 @ 110 at t=2) followed by a
sell of 12 < 15. -/
theorem fifoSell_consumes_oldest_first_witness :
    0 < (12 : ℚ) ∧ (12 : ℚ) < sumQ (buyFold [(10, 100, 1), (5, 110, 2)]) ∧
    (∃ payload, computeFifoPositionPayload (buyFold [(10, 100, 1), (5, 110, 2)])
        "AAPL" SpotSide.sell 12 120 3 = Except.ok payload ∧
      IsReducedSuffix (buyFold [(10, 100, 1), (5, 110, 2)]) payload.lots ∧
      List.Sorted lotLE payload.lots) :=
  ⟨by decide!, by decide!,
    fifoSell_consumes_oldest_first [(10, 100, 1), (5, 110, 2)] "AAPL" 12 120 3
      (by decide!) (by decide!)⟩

/- ------------------------------------------------------------------ -/
/- Shared machinery for the replay-agreement and conservation claims.   -/
/- ------------------------------------------------------------------ -/

theorem natCast_not_le_fifoEps {k : ℕ} (hk : 0 < k) : ¬ ((k : ℚ) ≤ FIFO_EPSILON) := by
  have h1 : (1 : ℚ) ≤ (k : ℚ) := by exact_mod_cast hk
  push_neg
  calc FIFO_EPSILON < 1 := by norm_num [FIFO_EPSILON]
    _ ≤ (k : ℚ) := h1

theorem natCast_not_le_statsEps {k : ℕ} (hk : 0 < k) : ¬ ((k : ℚ) ≤ STATS_EPSILON) := by
  have h1 : (1 : ℚ) ≤ (k : ℚ) := by exact_mod_cast hk
  push_neg
  calc STATS_EPSILON < 1 := by norm_num [STATS_EPSILON]
    _ ≤ (k : ℚ) := h1

theorem aggSellMap_skip (R : List FifoLotDoc) :
    ∀ r : ℚ, r ≤ STATS_EPSILON → aggSellMap r R = R := by
  induction R with
  | nil => intro r _; rfl
  | cons lot rest ih =>
    intro r hr
    rw [aggSellMap, if_pos hr, ih r hr]

theorem intLots_sumQ_nonneg {R : List FifoLotDoc} (h : IntLots R) : 0 ≤ sumQ R :=
  sumQ_nonneg (fun lot hl => le_of_lt (h lot hl).2)

theorem intLots_filter_eq {R : List FifoLotDoc} (h : IntLots R) :
    R.filter (fun l => decide (STATS_EPSILON < l.qty)) = R :=
  List.filter_eq_self.mpr (fun a ha => decide_eq_true (h a ha).statsEps_lt)

theorem intLots_sumQ_nat {R : List FifoLotDoc} (h : IntLots R) :
    ∃ s : ℕ, sumQ R = (s : ℚ) ∧ (R = [] ↔ s = 0) := by
  induction R with
  | nil => exact ⟨0, by simp [sumQ], by simp⟩
  | cons a rest ih =>
    obtain ⟨s, hs, -⟩ := ih (fun x hx => h x (List.mem_cons_of_mem a hx))
    obtain ⟨n, hn, hq⟩ := isPosInt_iff.mp (h a (List.mem_cons_self a rest))
    refine ⟨n + s, ?_, ?_⟩
    · rw [sumQ_cons, hq, hs]
      push_cast
      ring
    · constructor
      · intro hcon; cases hcon
      · intro hns
        omega

theorem min_sub_shift {c r S : ℚ} (hcr : c ≤ r) (hS : 0 ≤ S) :
    (r - c) - min (r - c) S = r - min r (c + S) := by
  rcases le_total S (r - c) with hle | hle
  · rw [min_eq_right hle, min_eq_right (by linarith)]
    ring
  · rw [min_eq_left hle, min_eq_left (by linarith)]
    ring

theorem roundLot_ts (lot : FifoLotDoc) : (roundLot lot).ts = lot.ts := rfl

theorem roundLot_int {lot : FifoLotDoc} (h : IsPosInt lot.qty) :
    roundLot lot = { qty := lot.qty, price := round6 lot.price, ts := lot.ts } := by
  simp [roundLot, h.round6_fix]

theorem sorted_map_roundLot {R : List FifoLotDoc} (h : List.Sorted lotLE R) :
    List.Sorted lotLE (R.map roundLot) := by
  unfold List.Sorted at h ⊢
  rw [List.pairwise_map]
  exact h

theorem wf_map_roundLot {R : List FifoLotDoc} (hint : IntLots R)
    (hsort : List.Sorted lotLE R) : WFLots (R.map roundLot) := by
  constructor
  · intro lot hl
    obtain ⟨y, hy, rfl⟩ := List.mem_map.mp hl
    refine ⟨?_, isDec6_round6 _, round6_idempotent _⟩
    show FIFO_EPSILON < round6 y.qty
    rw [(hint y hy).round6_fix]
    exact (hint y hy).fifoEps_lt
  · exact sorted_map_roundLot hsort

theorem aggSellMap_ts (R : List FifoLotDoc) :
    ∀ r : ℚ, (aggSellMap r R).map (fun l => l.ts) = R.map (fun l => l.ts) := by
  induction R with
  | nil => intro r; rfl
  | cons lot rest ih =>
    intro r
    rw [aggSellMap]
    by_cases hr : r ≤ STATS_EPSILON
    · rw [if_pos hr]
      simp [ih]
    · rw [if_neg hr]
      simp [ih]

theorem aggSell_filter_ts_sublist (R : List FifoLotDoc) (r : ℚ) :
    List.Sublist (((aggSellMap r R).filter (fun l => decide (STATS_EPSILON < l.qty))).map
      (fun l => l.ts)) (R.map (fun l => l.ts)) := by
  have h0 : List.Sublist ((aggSellMap r R).filter (fun l => decide (STATS_EPSILON < l.qty)))
      (aggSellMap r R) := List.filter_sublist _
  have h1 := h0.map (fun l => l.ts)
  rw [aggSellMap_ts R r] at h1
  exact h1

theorem sorted_aggSell_filter {R : List FifoLotDoc} (h : List.Sorted lotLE R) (r : ℚ) :
    List.Sorted lotLE ((aggSellMap r R).filter (fun l => decide (STATS_EPSILON < l.qty))) := by
  have hP : List.Pairwise (fun x y : ℤ => x ≤ y) (R.map (fun l => l.ts)) := by
    rw [List.pairwise_map]
    exact h
  have h2 := List.Pairwise.sublist (aggSell_filter_ts_sublist R r) hP
  rw [List.pairwise_map] at h2
  exact h2

theorem ts_bound_aggSell_filter {R : List FifoLotDoc} {T : ℤ}
    (h : ∀ lot ∈ R, lot.ts ≤ T) (r : ℚ) :
    ∀ lot ∈ (aggSellMap r R).filter (fun l => decide (STATS_EPSILON < l.qty)), lot.ts ≤ T := by
  intro lot hl
  have hts : lot.ts ∈ ((aggSellMap r R).filter
      (fun l => decide (STATS_EPSILON < l.qty))).map (fun l => l.ts) :=
    List.mem_map_of_mem _ hl
  have hmem := (aggSell_filter_ts_sublist R r).subset hts
  obtain ⟨y, hy, hyts⟩ := List.mem_map.mp hmem
  rw [← hyts]
  exact h y hy

theorem foldl_add_qty (L : List FifoLotDoc) :
    ∀ c : ℚ, L.foldl (fun acc lot => acc + lot.qty) c = c + sumQ L := by
  induction L with
  | nil => intro c; simp [sumQ]
  | cons a rest ih =>
    intro c
    rw [List.foldl_cons, ih, sumQ_cons]
    ring

theorem getA_mem {β : Type} {a : List (String × β)} {k : String} {v : β}
    (h : getA a k = some v) : (k, v) ∈ a := by
  induction a with
  | nil => cases h
  | cons kv rest ih =>
    rw [getA] at h
    by_cases hk : kv.1 = k
    · rw [if_pos hk] at h
      obtain rfl : kv.2 = v := Option.some_injective _ h
      have hkv : kv = (k, kv.2) := by
        obtain ⟨k1, v1⟩ := kv
        simp only at hk
        rw [hk]
      rw [← hkv]
      exact List.mem_cons_self kv rest
    · rw [if_neg hk] at h
      exact List.mem_cons_of_mem kv (ih h)


theorem mem_setA {β : Type} {a : List (String × β)} {k : String} {v : β} {kv : String × β}
    (h : kv ∈ setA a k v) : kv = (k, v) ∨ kv ∈ a := by
  induction a with
  | nil =>
    rw [setA] at h
    rcases List.mem_singleton.mp h with rfl
    exact Or.inl rfl
  | cons kv0 rest ih =>
    rw [setA] at h
    by_cases hk : kv0.1 = k
    · rw [if_pos hk] at h
      rcases List.mem_cons.mp h with rfl | h2
      · exact Or.inl rfl
      · exact Or.inr (List.mem_cons_of_mem kv0 h2)
    · rw [if_neg hk] at h
      rcases List.mem_cons.mp h with heq | h2
      · exact Or.inr (by rw [heq]; exact List.mem_cons_self kv0 rest)
      · rcases ih h2 with h3 | h3
        · exact Or.inl h3
        · exact Or.inr (List.mem_cons_of_mem kv0 h3)

theorem mem_keys_setA {β : Type} {a : List (String × β)} {k k' : String} {v : β}
    (h : k' ∈ (setA a k v).map Prod.fst) : k' ∈ a.map Prod.fst ∨ k' = k := by
  obtain ⟨kv, hkv, rfl⟩ := List.mem_map.mp h
  rcases mem_setA hkv with rfl | h2
  · exact Or.inr rfl
  · exact Or.inl (List.mem_map_of_mem Prod.fst h2)

theorem nodup_keys_setA {β : Type} {a : List (String × β)} (k : String) (v : β)
    (h : (a.map Prod.fst).Nodup) : ((setA a k v).map Prod.fst).Nodup := by
  induction a with
  | nil => simp [setA]
  | cons kv rest ih =>
    rw [List.map_cons, List.nodup_cons] at h
    rw [setA]
    by_cases hk : kv.1 = k
    · rw [if_pos hk]
      rw [List.map_cons, List.nodup_cons]
      exact ⟨by rw [← hk]; exact h.1, h.2⟩
    · rw [if_neg hk]
      rw [List.map_cons, List.nodup_cons]
      refine ⟨?_, ih h.2⟩
      intro hcon
      rcases mem_keys_setA hcon with h3 | h3
      · exact h.1 h3
      · exact hk h3

theorem getA_of_mem_nodup {β : Type} {a : List (String × β)} {kv : String × β}
    (hnd : (a.map Prod.fst).Nodup) (h : kv ∈ a) : getA a kv.1 = some kv.2 := by
  induction a with
  | nil => cases h
  | cons kv0 rest ih =>
    rw [List.map_cons, List.nodup_cons] at hnd
    rcases List.mem_cons.mp h with rfl | h2
    · rw [getA, if_pos rfl]
    · rw [getA]
      by_cases hk : kv0.1 = kv.1
      · exfalso
        apply hnd.1
        rw [hk]
        exact List.mem_map_of_mem Prod.fst h2
      · rw [if_neg hk]
        exact ih hnd.2 h2

theorem isPosInt_natCast {k : ℕ} (hk : 0 < k) : IsPosInt ((k : ℚ)) :=
  isPosInt_iff.mpr ⟨k, hk, rfl⟩

theorem aggSell_int (R : List FifoLotDoc) :
    IntLots R → ∀ k : ℕ,
      IntLots ((aggSellMap (k : ℚ) R).filter (fun l => decide (STATS_EPSILON < l.qty))) := by
  induction R with
  | nil => intro _ k lot hl; cases hl
  | cons a rest ih =>
    intro hint k
    have ha := hint a (List.mem_cons_self a rest)
    have hrest : IntLots rest := fun x hx => hint x (List.mem_cons_of_mem a hx)
    rcases Nat.eq_zero_or_pos k with rfl | hk
    · rw [Nat.cast_zero, aggSellMap_skip _ 0 (by norm_num [STATS_EPSILON]),
        intLots_filter_eq hint]
      exact hint
    · have hks := natCast_not_le_statsEps hk
      rw [aggSellMap, if_neg hks]
      rcases le_or_lt a.qty (k : ℚ) with hak | hka
      · have hmin : min a.qty (k : ℚ) = a.qty := min_eq_left hak
        have hzero : a.qty - min a.qty (k : ℚ) = 0 := by rw [hmin]; ring
        have hneg : ¬ (STATS_EPSILON < a.qty - min a.qty (k : ℚ)) := by
          rw [hzero]; norm_num [STATS_EPSILON]
        rw [List.filter_cons_of_neg (by simpa using hneg)]
        obtain ⟨n, hn, hqa⟩ := isPosInt_iff.mp ha
        have hnk : n ≤ k := by
          rw [hqa] at hak
          exact_mod_cast hak
        have hcast : (k : ℚ) - min a.qty (k : ℚ) = ((k - n : ℕ) : ℚ) := by
          rw [hmin, hqa]
          push_cast [Nat.cast_sub hnk]
          ring
        rw [hcast]
        exact ih hrest (k - n)
      · have hmin : min a.qty (k : ℚ) = (k : ℚ) := min_eq_right hka.le
        have hsub : IsPosInt (a.qty - min a.qty (k : ℚ)) := by
          rw [hmin]
          exact ha.sub (isPosInt_natCast hk) hka
        rw [List.filter_cons_of_pos (by simpa using hsub.statsEps_lt)]
        have hz : (k : ℚ) - min a.qty (k : ℚ) = 0 := by rw [hmin]; ring
        rw [hz, aggSellMap_skip _ 0 (by norm_num [STATS_EPSILON]), intLots_filter_eq hrest]
        intro lot hl
        rcases List.mem_cons.mp hl with rfl | h2
        · exact hsub
        · exact hrest lot h2

theorem aggSell_sum (R : List FifoLotDoc) :
    IntLots R → ∀ k : ℕ,
      sumQ ((aggSellMap (k : ℚ) R).filter (fun l => decide (STATS_EPSILON < l.qty))) =
        sumQ R - min (k : ℚ) (sumQ R) := by
  induction R with
  | nil =>
    intro _ k
    rw [sumQ_nil]
    have hmin : min (k : ℚ) (0 : ℚ) = 0 := min_eq_right (Nat.cast_nonneg k)
    simp [aggSellMap, sumQ, hmin]
  | cons a rest ih =>
    intro hint k
    have ha := hint a (List.mem_cons_self a rest)
    have hrest : IntLots rest := fun x hx => hint x (List.mem_cons_of_mem a hx)
    have hsrest : 0 ≤ sumQ rest := intLots_sumQ_nonneg hrest
    have haq : 0 < a.qty := ha.2
    rcases Nat.eq_zero_or_pos k with rfl | hk
    · rw [Nat.cast_zero, aggSellMap_skip _ 0 (by norm_num [STATS_EPSILON]),
        intLots_filter_eq hint]
      have hmin : min (0 : ℚ) (sumQ (a :: rest)) = 0 :=
        min_eq_left (intLots_sumQ_nonneg hint)
      rw [hmin]
      ring
    · have hks := natCast_not_le_statsEps hk
      rw [aggSellMap, if_neg hks]
      rcases le_or_lt a.qty (k : ℚ) with hak | hka
      · have hmin : min a.qty (k : ℚ) = a.qty := min_eq_left hak
        have hzero : a.qty - min a.qty (k : ℚ) = 0 := by rw [hmin]; ring
        have hneg : ¬ (STATS_EPSILON < a.qty - min a.qty (k : ℚ)) := by
          rw [hzero]; norm_num [STATS_EPSILON]
        rw [List.filter_cons_of_neg (by simpa using hneg)]
        obtain ⟨n, hn, hqa⟩ := isPosInt_iff.mp ha
        have hnk : n ≤ k := by
          rw [hqa] at hak
          exact_mod_cast hak
        have hcast : (k : ℚ) - min a.qty (k : ℚ) = ((k - n : ℕ) : ℚ) := by
          rw [hmin, hqa]
          push_cast [Nat.cast_sub hnk]
          ring
        rw [hcast, ih hrest (k - n), sumQ_cons]
        have hc2 : ((k - n : ℕ) : ℚ) = (k : ℚ) - a.qty := by
          rw [hqa]
          push_cast [Nat.cast_sub hnk]
          ring
        rw [hc2]
        linarith [min_sub_shift hak hsrest]
      · have hmin : min a.qty (k : ℚ) = (k : ℚ) := min_eq_right hka.le
        have hsub : IsPosInt (a.qty - min a.qty (k : ℚ)) := by
          rw [hmin]
          exact ha.sub (isPosInt_natCast hk) hka
        rw [List.filter_cons_of_pos (by simpa using hsub.statsEps_lt)]
        have hz : (k : ℚ) - min a.qty (k : ℚ) = 0 := by rw [hmin]; ring
        rw [hz, aggSellMap_skip _ 0 (by norm_num [STATS_EPSILON]), intLots_filter_eq hrest]
        simp only [sumQ_cons]
        have hminks : min (k : ℚ) (a.qty + sumQ rest) = (k : ℚ) :=
          min_eq_left (by linarith)
        rw [hmin, hminks]
        ring


theorem sell_agree (R : List FifoLotDoc) :
    IntLots R → ∀ k : ℕ,
      fifoSellLoop ((k : ℚ)) (R.map roundLot) =
        (((aggSellMap ((k : ℚ)) R).filter (fun l => decide (STATS_EPSILON < l.qty))).map roundLot,
         (k : ℚ) - min ((k : ℚ)) (sumQ R)) := by
  induction R with
  | nil =>
    intro _ k
    have hmin : min ((k : ℚ)) (sumQ []) = 0 := by
      rw [sumQ_nil]
      exact min_eq_right (Nat.cast_nonneg k)
    rw [hmin]
    simp [fifoSellLoop, aggSellMap]
  | cons a rest ih =>
    intro hint k
    have ha := hint a (List.mem_cons_self a rest)
    have hrest : IntLots rest := fun x hx => hint x (List.mem_cons_of_mem a hx)
    have hsrest : 0 ≤ sumQ rest := intLots_sumQ_nonneg hrest
    rcases Nat.eq_zero_or_pos k with rfl | hk
    · rw [Nat.cast_zero]
      rw [fifoSellLoop_skip _ 0 (by norm_num [FIFO_EPSILON])]
      rw [aggSellMap_skip _ 0 (by norm_num [STATS_EPSILON]), intLots_filter_eq hint]
      have hmin : min (0 : ℚ) (sumQ (a :: rest)) = 0 :=
        min_eq_left (intLots_sumQ_nonneg hint)
      rw [hmin]
      norm_num
    · have hkf := natCast_not_le_fifoEps hk
      have hks := natCast_not_le_statsEps hk
      have hrla : roundLot a = { qty := a.qty, price := round6 a.price, ts := a.ts } :=
        roundLot_int ha
      rw [List.map_cons, hrla, fifoSellLoop, if_neg hkf]
      simp only
      rcases le_or_lt a.qty ((k : ℚ)) with hak | hka
      · -- the head lot is fully consumed on both sides
        have hmin : min a.qty ((k : ℚ)) = a.qty := min_eq_left hak
        have hleft : ¬ FIFO_EPSILON < a.qty - min a.qty ((k : ℚ)) := by
          rw [hmin, sub_self]
          norm_num [FIFO_EPSILON]
        rw [if_neg hleft]
        obtain ⟨n, hn, hqa⟩ := isPosInt_iff.mp ha
        have hnk : n ≤ k := by
          rw [hqa] at hak
          exact_mod_cast hak
        have hcast : (k : ℚ) - min a.qty ((k : ℚ)) = (((k - n : ℕ)) : ℚ) := by
          rw [hmin, hqa]
          push_cast [Nat.cast_sub hnk]
          ring
        rw [hcast, ih hrest (k - n)]
        have hneg : ¬ (STATS_EPSILON < a.qty - min a.qty ((k : ℚ))) := by
          rw [hmin, sub_self]
          norm_num [STATS_EPSILON]
        rw [aggSellMap, if_neg hks, List.filter_cons_of_neg (by simpa using hneg), hcast]
        have hc2 : (((k - n : ℕ)) : ℚ) = (k : ℚ) - a.qty := by
          rw [hqa]
          push_cast [Nat.cast_sub hnk]
          ring
        rw [sumQ_cons, hc2]
        have hshift := min_sub_shift hak hsrest
        rw [hshift]
      · -- the head lot is only partially consumed: the loop stops here
        have hmin : min a.qty ((k : ℚ)) = (k : ℚ) := min_eq_right hka.le
        have hsub : IsPosInt (a.qty - min a.qty ((k : ℚ))) := by
          rw [hmin]
          exact ha.sub (isPosInt_natCast hk) hka
        have hlo : FIFO_EPSILON < a.qty - min a.qty ((k : ℚ)) := hsub.fifoEps_lt
        rw [if_pos hlo]
        have hz : (k : ℚ) - min a.qty ((k : ℚ)) = 0 := by rw [hmin]; ring
        rw [hz, fifoSellLoop_skip _ 0 (by norm_num [FIFO_EPSILON])]
        rw [aggSellMap, if_neg hks,
          List.filter_cons_of_pos (by simpa using hsub.statsEps_lt), hz,
          aggSellMap_skip _ 0 (by norm_num [STATS_EPSILON]), intLots_filter_eq hrest]
        rw [List.map_cons, roundLot_int hsub]
        have hminks : min ((k : ℚ)) (sumQ (a :: rest)) = (k : ℚ) := by
          rw [sumQ_cons]
          exact min_eq_left (by linarith)
        rw [hminks]
        simp [hsub.round6_fix]


theorem aggLotsA_nil (s : String) : aggLotsA [] s = [] := rfl

theorem aggLotsA_aggStep_buy (a : List (String × AggregatedPosition)) (o : NormalizedOrder)
    (hside : o.side = SpotSide.buy) :
    aggLotsA (aggStep a o) o.symbol =
      aggLotsA a o.symbol ++ [{ qty := o.qty, price := o.fillPrice, ts := o.ts }] := by
  unfold aggStep
  rw [hside]
  cases hget : getA a o.symbol with
  | none =>
    simp only [hget]
    unfold aggLotsA
    rw [getA_setA_self, hget]
  | some g =>
    simp only [hget]
    unfold aggLotsA
    rw [getA_setA_self, hget]

theorem aggLotsA_aggStep_sell (a : List (String × AggregatedPosition)) (o : NormalizedOrder)
    (hside : o.side = SpotSide.sell) :
    aggLotsA (aggStep a o) o.symbol =
      (aggSellMap o.qty (aggLotsA a o.symbol)).filter
        (fun lot => decide (STATS_EPSILON < lot.qty)) := by
  unfold aggStep
  rw [hside]
  cases hget : getA a o.symbol with
  | none =>
    simp only [hget]
    unfold aggLotsA
    rw [getA_setA_self, hget]
  | some g =>
    simp only [hget]
    unfold aggLotsA
    rw [getA_setA_self, hget]

theorem aggLotsA_aggStep_ne (a : List (String × AggregatedPosition)) (o : NormalizedOrder)
    {s : String} (hs : ¬ (o.symbol = s)) :
    aggLotsA (aggStep a o) s = aggLotsA a s := by
  unfold aggStep aggLotsA
  cases o.side
  · rw [getA_setA_ne _ _ _ _ hs]
  · rw [getA_setA_ne _ _ _ _ hs]

theorem map_round_fix {L : List FifoLotDoc}
    (h : ∀ lot ∈ L, IsDec6 lot.qty ∧ round6 lot.price = lot.price) :
    L.map (fun lot => { lot with qty := round6 lot.qty, price := round6 lot.price }) = L := by
  apply map_eq_self_of
  intro x hx
  obtain ⟨hdec, hpr⟩ := h x hx
  cases x
  simp_all [round6_eq_self hdec]

theorem applyBuy_roundLot {R : List FifoLotDoc} (hint : IntLots R)
    (hsort : List.Sorted lotLE R) {q : ℚ} (hq : IsPosInt q) (p : ℚ) {t : ℤ}
    (hts : ∀ lot ∈ R, lot.ts ≤ t) :
    applyBuy (R.map roundLot) q p t =
      (R ++ [({ qty := q, price := p, ts := t } : FifoLotDoc)]).map roundLot := by
  have hwf := wf_map_roundLot hint hsort
  unfold applyBuy
  rw [normalizeFifoLots_eq_self hwf]
  unfold finalizeLots
  rw [List.filter_append, List.map_append]
  have hf1 : (R.map roundLot).filter (fun lot => decide (FIFO_EPSILON < lot.qty)) =
      R.map roundLot :=
    List.filter_eq_self.mpr (fun x hx => decide_eq_true (hwf.1 x hx).1)
  have hf2 : ([{ qty := round6 q, price := p, ts := t }] : List FifoLotDoc).filter
      (fun lot => decide (FIFO_EPSILON < lot.qty)) =
      [{ qty := round6 q, price := p, ts := t }] := by
    have hlt : FIFO_EPSILON < round6 q := by
      rw [hq.round6_fix]
      exact hq.fifoEps_lt
    simp [hlt]
  rw [hf1, hf2]
  rw [map_round_fix (fun x hx => ⟨(hwf.1 x hx).2.1, (hwf.1 x hx).2.2⟩)]
  have hnew : ([{ qty := round6 q, price := p, ts := t }] : List FifoLotDoc).map
      (fun lot => { lot with qty := round6 lot.qty, price := round6 lot.price }) =
      [{ qty := q, price := round6 p, ts := t }] := by
    simp [round6_idempotent, hq.round6_fix]
  rw [hnew]
  have hsorted : List.Sorted lotLE
      (R.map roundLot ++ [({ qty := q, price := round6 p, ts := t } : FifoLotDoc)]) := by
    unfold List.Sorted
    rw [List.pairwise_append]
    refine ⟨hwf.2, List.pairwise_singleton _ _, ?_⟩
    intro x hx y hy
    rw [List.mem_singleton.mp hy]
    obtain ⟨x0, hx0, rfl⟩ := List.mem_map.mp hx
    show x0.ts ≤ t
    exact hts x0 hx0
  rw [hsorted.insertionSort_eq]
  rw [List.map_append]
  simp [roundLot, hq.round6_fix]


theorem aggStep_eq (a : List (String × AggregatedPosition)) (o : NormalizedOrder) :
    aggStep a o = setA a o.symbol (aggEntry a o) := by
  unfold aggStep aggEntry
  cases o.side
  · rfl
  · rfl

theorem aggEntry_lots (a : List (String × AggregatedPosition)) (o : NormalizedOrder) :
    (aggEntry a o).lots = aggLotsA (aggStep a o) o.symbol := by
  rw [aggStep_eq]
  unfold aggLotsA
  rw [getA_setA_self]

theorem aggEntry_symbol (a : List (String × AggregatedPosition)) (o : NormalizedOrder)
    (hsym : ∀ kv ∈ a, kv.2.symbol = kv.1) : (aggEntry a o).symbol = o.symbol := by
  unfold aggEntry
  cases hget : getA a o.symbol with
  | none =>
    cases o.side
    · rfl
    · rfl
  | some g =>
    have hg : g.symbol = o.symbol := hsym (o.symbol, g) (getA_mem hget)
    cases o.side
    · exact hg
    · exact hg

theorem compute_sell_int {R : List FifoLotDoc} (hint : IntLots R)
    (hsort : List.Sorted lotLE R) (k : ℕ) (symbol : String) (price : ℚ) (ts : ℤ) :
    ((k : ℚ) ≤ sumQ R →
      computeFifoPositionPayload (R.map roundLot) symbol SpotSide.sell ((k : ℚ)) price ts =
        Except.ok (mkPayload symbol
          (((aggSellMap ((k : ℚ)) R).filter
            (fun l => decide (STATS_EPSILON < l.qty))).map roundLot) ts)) ∧
    (sumQ R < (k : ℚ) →
      computeFifoPositionPayload (R.map roundLot) symbol SpotSide.sell ((k : ℚ)) price ts =
        Except.error ("Insufficient FIFO lots to settle sell order.")) := by
  have hwfF : WFLots (((aggSellMap ((k : ℚ)) R).filter
      (fun l => decide (STATS_EPSILON < l.qty))).map roundLot) :=
    wf_map_roundLot (aggSell_int R hint k) (sorted_aggSell_filter hsort ((k : ℚ)))
  constructor
  · intro hle
    have hmin : min ((k : ℚ)) (sumQ R) = (k : ℚ) := min_eq_left hle
    simp only [computeFifoPositionPayload]
    rw [normalizeFifoLots_eq_self (wf_map_roundLot hint hsort), sell_agree R hint k]
    simp only [hmin, sub_self]
    rw [if_neg (by norm_num [FIFO_EPSILON])]
    rw [finalizeLots_eq_self hwfF]
  · intro hlt
    have hmin : min ((k : ℚ)) (sumQ R) = sumQ R := min_eq_right hlt.le
    obtain ⟨sn, hsn, -⟩ := intLots_sumQ_nat hint
    have hsk : sn < k := by
      rw [hsn] at hlt
      exact_mod_cast hlt
    have hrem : FIFO_EPSILON < (k : ℚ) - sumQ R := by
      have hone : (1 : ℚ) ≤ (k : ℚ) - sumQ R := by
        rw [hsn]
        have : (1 : ℚ) ≤ ((k - sn : ℕ) : ℚ) := by
          have : 1 ≤ k - sn := by omega
          exact_mod_cast this
        have hcast : ((k - sn : ℕ) : ℚ) = (k : ℚ) - (sn : ℚ) := by
          push_cast [Nat.cast_sub hsk.le]
          ring
        linarith [hcast ▸ this]
      calc FIFO_EPSILON < 1 := by norm_num [FIFO_EPSILON]
        _ ≤ (k : ℚ) - sumQ R := hone
    simp only [computeFifoPositionPayload]
    rw [normalizeFifoLots_eq_self (wf_map_roundLot hint hsort), sell_agree R hint k]
    simp only [hmin]
    rw [if_pos hrem]


theorem step_preserves (m : List (String × PositionPayload))
    (a : List (String × AggregatedPosition)) (o : NormalizedOrder)
    (m2 : List (String × PositionPayload))
    (hq : IsPosInt o.qty)
    (hrel : ∀ s, writeLotsAt m s = (aggLotsA a s).map roundLot)
    (hint : ∀ kv ∈ a, IntLots kv.2.lots)
    (hsort : ∀ kv ∈ a, List.Sorted lotLE kv.2.lots)
    (hts : ∀ kv ∈ a, ∀ lot ∈ kv.2.lots, lot.ts ≤ o.ts)
    (hnd : (a.map Prod.fst).Nodup)
    (hsym : ∀ kv ∈ a, kv.2.symbol = kv.1)
    (hok : writeStep m o = Except.ok m2) :
    (∀ s, writeLotsAt m2 s = (aggLotsA (aggStep a o) s).map roundLot) ∧
    (∀ kv ∈ aggStep a o, IntLots kv.2.lots) ∧
    (∀ kv ∈ aggStep a o, List.Sorted lotLE kv.2.lots) ∧
    (∀ kv ∈ aggStep a o, ∀ lot ∈ kv.2.lots, lot.ts ≤ o.ts) ∧
    ((aggStep a o).map Prod.fst).Nodup ∧
    (∀ kv ∈ aggStep a o, kv.2.symbol = kv.1) := by
  have hintS : ∀ s, IntLots (aggLotsA a s) := by
    intro s
    unfold aggLotsA
    cases hget : getA a s with
    | none => intro lot hl; cases hl
    | some g => exact hint (s, g) (getA_mem hget)
  have hsortS : ∀ s, List.Sorted lotLE (aggLotsA a s) := by
    intro s
    unfold aggLotsA
    cases hget : getA a s with
    | none => exact List.sorted_nil
    | some g => exact hsort (s, g) (getA_mem hget)
  have htsS : ∀ s, ∀ lot ∈ aggLotsA a s, lot.ts ≤ o.ts := by
    intro s
    unfold aggLotsA
    cases hget : getA a s with
    | none => intro lot hl; cases hl
    | some g => exact hts (s, g) (getA_mem hget)
  have wrap :
      (∀ s, writeLotsAt m2 s = (aggLotsA (aggStep a o) s).map roundLot) →
      IntLots (aggLotsA (aggStep a o) o.symbol) →
      List.Sorted lotLE (aggLotsA (aggStep a o) o.symbol) →
      (∀ lot ∈ aggLotsA (aggStep a o) o.symbol, lot.ts ≤ o.ts) →
      (∀ s, writeLotsAt m2 s = (aggLotsA (aggStep a o) s).map roundLot) ∧
      (∀ kv ∈ aggStep a o, IntLots kv.2.lots) ∧
      (∀ kv ∈ aggStep a o, List.Sorted lotLE kv.2.lots) ∧
      (∀ kv ∈ aggStep a o, ∀ lot ∈ kv.2.lots, lot.ts ≤ o.ts) ∧
      ((aggStep a o).map Prod.fst).Nodup ∧
      (∀ kv ∈ aggStep a o, kv.2.symbol = kv.1) := by
    intro h1 h2 h3 h4
    refine ⟨h1, ?_, ?_, ?_, ?_, ?_⟩
    · intro kv hkv
      rw [aggStep_eq] at hkv
      rcases mem_setA hkv with rfl | hold
      · show IntLots (aggEntry a o).lots
        rw [aggEntry_lots]
        exact h2
      · exact hint kv hold
    · intro kv hkv
      rw [aggStep_eq] at hkv
      rcases mem_setA hkv with rfl | hold
      · show List.Sorted lotLE (aggEntry a o).lots
        rw [aggEntry_lots]
        exact h3
      · exact hsort kv hold
    · intro kv hkv
      rw [aggStep_eq] at hkv
      rcases mem_setA hkv with rfl | hold
      · show ∀ lot ∈ (aggEntry a o).lots, lot.ts ≤ o.ts
        rw [aggEntry_lots]
        exact h4
      · exact hts kv hold
    · rw [aggStep_eq]
      exact nodup_keys_setA _ _ hnd
    · intro kv hkv
      rw [aggStep_eq] at hkv
      rcases mem_setA hkv with rfl | hold
      · exact aggEntry_symbol a o hsym
      · exact hsym kv hold
  have hws : writeStep m o = (match computeFifoPositionPayload (writeLotsAt m o.symbol)
      o.symbol o.side o.qty o.fillPrice o.ts with
    | Except.error msg => Except.error msg
    | Except.ok payload => Except.ok (setA m o.symbol payload)) := rfl
  cases hside : o.side with
  | buy =>
    have hcomp : computeFifoPositionPayload (writeLotsAt m o.symbol) o.symbol SpotSide.buy
        o.qty o.fillPrice o.ts =
        Except.ok (mkPayload o.symbol
          (applyBuy (writeLotsAt m o.symbol) o.qty o.fillPrice o.ts) o.ts) := rfl
    rw [hws, hside, hcomp] at hok
    have hm2 : m2 = setA m o.symbol (mkPayload o.symbol
        (applyBuy (writeLotsAt m o.symbol) o.qty o.fillPrice o.ts) o.ts) :=
      (Except.ok.inj hok).symm
    have hlots2 : applyBuy (writeLotsAt m o.symbol) o.qty o.fillPrice o.ts =
        (aggLotsA a o.symbol ++
          [({ qty := o.qty, price := o.fillPrice, ts := o.ts } : FifoLotDoc)]).map roundLot := by
      rw [hrel o.symbol]
      exact applyBuy_roundLot (hintS o.symbol) (hsortS o.symbol) hq o.fillPrice (htsS o.symbol)
    have hnewlots : aggLotsA (aggStep a o) o.symbol =
        aggLotsA a o.symbol ++
          [({ qty := o.qty, price := o.fillPrice, ts := o.ts } : FifoLotDoc)] :=
      aggLotsA_aggStep_buy a o hside
    apply wrap
    · intro s
      by_cases hs : o.symbol = s
      · subst hs
        rw [hm2]
        unfold writeLotsAt
        rw [getA_setA_self]
        show applyBuy (writeLotsAt m o.symbol) o.qty o.fillPrice o.ts =
          (aggLotsA (aggStep a o) o.symbol).map roundLot
        rw [hlots2, hnewlots]
      · rw [hm2]
        unfold writeLotsAt
        rw [getA_setA_ne _ _ _ _ hs, aggLotsA_aggStep_ne a o hs]
        exact hrel s
    · rw [hnewlots]
      intro lot hl
      rcases List.mem_append.mp hl with hold | hnew
      · exact hintS o.symbol lot hold
      · rw [List.mem_singleton.mp hnew]
        exact hq
    · rw [hnewlots]
      unfold List.Sorted
      rw [List.pairwise_append]
      refine ⟨hsortS o.symbol, List.pairwise_singleton _ _, ?_⟩
      intro x hx y hy
      rw [List.mem_singleton.mp hy]
      exact htsS o.symbol x hx
    · rw [hnewlots]
      intro lot hl
      rcases List.mem_append.mp hl with hold | hnew
      · exact htsS o.symbol lot hold
      · rw [List.mem_singleton.mp hnew]
  | sell =>
    obtain ⟨n, hn, hqn⟩ := isPosInt_iff.mp hq
    have hcs := compute_sell_int (hintS o.symbol) (hsortS o.symbol) n o.symbol o.fillPrice o.ts
    rw [hws, hside, hrel o.symbol, hqn] at hok
    rcases le_or_lt ((n : ℚ)) (sumQ (aggLotsA a o.symbol)) with hle | hlt
    · rw [hcs.1 hle] at hok
      have hm2 : m2 = setA m o.symbol (mkPayload o.symbol
          (((aggSellMap ((n : ℚ)) (aggLotsA a o.symbol)).filter
            (fun l => decide (STATS_EPSILON < l.qty))).map roundLot) o.ts) :=
        (Except.ok.inj hok).symm
      have hnewlots : aggLotsA (aggStep a o) o.symbol =
          (aggSellMap ((n : ℚ)) (aggLotsA a o.symbol)).filter
            (fun l => decide (STATS_EPSILON < l.qty)) := by
        rw [aggLotsA_aggStep_sell a o hside, hqn]
      apply wrap
      · intro s
        by_cases hs : o.symbol = s
        · subst hs
          rw [hm2]
          unfold writeLotsAt
          rw [getA_setA_self]
          show (((aggSellMap ((n : ℚ)) (aggLotsA a o.symbol)).filter
              (fun l => decide (STATS_EPSILON < l.qty))).map roundLot) =
            (aggLotsA (aggStep a o) o.symbol).map roundLot
          rw [hnewlots]
        · rw [hm2]
          unfold writeLotsAt
          rw [getA_setA_ne _ _ _ _ hs, aggLotsA_aggStep_ne a o hs]
          exact hrel s
      · rw [hnewlots]
        exact aggSell_int _ (hintS o.symbol) n
      · rw [hnewlots]
        exact sorted_aggSell_filter (hsortS o.symbol) ((n : ℚ))
      · rw [hnewlots]
        exact ts_bound_aggSell_filter (htsS o.symbol) ((n : ℚ))
    · rw [hcs.2 hlt] at hok
      exact Except.noConfusion hok


theorem writeFold_invariant :
    ∀ (orders : List NormalizedOrder) (m : List (String × PositionPayload))
      (a : List (String × AggregatedPosition)) (mfin : List (String × PositionPayload)),
      (∀ o ∈ orders, IsPosInt o.qty) →
      List.Sorted ordLE orders →
      (∀ s, writeLotsAt m s = (aggLotsA a s).map roundLot) →
      (∀ kv ∈ a, IntLots kv.2.lots) →
      (∀ kv ∈ a, List.Sorted lotLE kv.2.lots) →
      (∀ kv ∈ a, ∀ lot ∈ kv.2.lots, ∀ o ∈ orders, lot.ts ≤ o.ts) →
      ((a.map Prod.fst).Nodup) →
      (∀ kv ∈ a, kv.2.symbol = kv.1) →
      writeFold m orders = Except.ok mfin →
      (∀ s, writeLotsAt mfin s = (aggLotsA (orders.foldl aggStep a) s).map roundLot) ∧
      (∀ kv ∈ orders.foldl aggStep a, IntLots kv.2.lots) ∧
      (((orders.foldl aggStep a).map Prod.fst).Nodup) ∧
      (∀ kv ∈ orders.foldl aggStep a, kv.2.symbol = kv.1) := by
  intro orders
  induction orders with
  | nil =>
    intro m a mfin _ _ hrel hint _ _ hnd hsym hok
    have hm : m = mfin := Except.ok.inj hok
    subst hm
    exact ⟨hrel, hint, hnd, hsym⟩
  | cons o os ih =>
    intro m a mfin hq hsorted hrel hint hsortl hts hnd hsym hok
    have hq0 : IsPosInt o.qty := hq o (List.mem_cons_self o os)
    have hqs : ∀ o2 ∈ os, IsPosInt o2.qty := fun o2 h2 => hq o2 (List.mem_cons_of_mem o h2)
    have hsorted2 : List.Sorted ordLE os := hsorted.of_cons
    have hle : ∀ o2 ∈ os, o.ts ≤ o2.ts := fun o2 h2 =>
      List.rel_of_sorted_cons hsorted o2 h2
    rw [writeFold] at hok
    cases hstep : writeStep m o with
    | error msg =>
      rw [hstep] at hok
      exact Except.noConfusion hok
    | ok m2 =>
      rw [hstep] at hok
      have hts0 : ∀ kv ∈ a, ∀ lot ∈ kv.2.lots, lot.ts ≤ o.ts := fun kv hkv lot hl =>
        hts kv hkv lot hl o (List.mem_cons_self o os)
      obtain ⟨h1, h2, h3, h4, h5, h6⟩ :=
        step_preserves m a o m2 hq0 hrel hint hsortl hts0 hnd hsym hstep
      have hts2 : ∀ kv ∈ aggStep a o, ∀ lot ∈ kv.2.lots, ∀ o2 ∈ os, lot.ts ≤ o2.ts :=
        fun kv hkv lot hl o2 h2m => le_trans (h4 kv hkv lot hl) (hle o2 h2m)
      have := ih m2 (aggStep a o) mfin hqs hsorted2 h1 h2 h3 hts2 h5 h6 hok
      rw [List.foldl_cons]
      exact this

theorem find_symbol_none {rest : List (String × AggregatedPosition)} {s : String}
    (hsym : ∀ kv ∈ rest, kv.2.symbol = kv.1)
    (hnot : ¬ (s ∈ rest.map Prod.fst)) :
    ((rest.map (fun kv => finalizeAgg kv.2)).filter
      (fun g => decide (STATS_EPSILON < g.totalQty))).find?
      (fun agg => decide (agg.symbol = s)) = none := by
  rw [List.find?_eq_none]
  intro g hg
  have hg2 := List.mem_of_mem_filter hg
  obtain ⟨kv, hkv, rfl⟩ := List.mem_map.mp hg2
  have hsymb : (finalizeAgg kv.2).symbol = kv.1 := by
    unfold finalizeAgg
    exact hsym kv hkv
  rw [hsymb]
  intro hcon
  apply hnot
  have : kv.1 = s := of_decide_eq_true hcon
  rw [← this]
  exact List.mem_map_of_mem Prod.fst hkv

theorem finalizeAgg_int_lots {g : AggregatedPosition} (hint : IntLots g.lots) :
    (finalizeAgg g).lots = g.lots.map roundLot := by
  unfold finalizeAgg
  simp only
  rw [intLots_filter_eq hint]
  apply List.map_congr_left
  intro x hx
  rfl

theorem finalizeAgg_totalQty {g : AggregatedPosition} (hint : IntLots g.lots) :
    (finalizeAgg g).totalQty = sumQ g.lots := by
  unfold finalizeAgg
  simp only
  rw [foldl_add_qty, zero_add]
  obtain ⟨sn, hsn, -⟩ := intLots_sumQ_nat hint
  rw [hsn]
  exact round6_intCast (sn : ℤ) |>.trans (by push_cast; ring) |>.symm ▸ rfl

theorem aggOut_lookup :
    ∀ (a : List (String × AggregatedPosition)),
      ((a.map Prod.fst).Nodup) →
      (∀ kv ∈ a, kv.2.symbol = kv.1) →
      (∀ kv ∈ a, IntLots kv.2.lots) →
      ∀ s, aggLotsOut ((a.map (fun kv => finalizeAgg kv.2)).filter
          (fun g => decide (STATS_EPSILON < g.totalQty))) s =
        (aggLotsA a s).map roundLot := by
  intro a
  induction a with
  | nil => intro _ _ _ s; rfl
  | cons kv rest ih =>
    intro hnd hsym hint s
    rw [List.map_cons, List.nodup_cons] at hnd
    have hsymk : kv.2.symbol = kv.1 := hsym kv (List.mem_cons_self kv rest)
    have hintk : IntLots kv.2.lots := hint kv (List.mem_cons_self kv rest)
    have hsymr : ∀ kv2 ∈ rest, kv2.2.symbol = kv2.1 :=
      fun kv2 h => hsym kv2 (List.mem_cons_of_mem kv h)
    have hintr : ∀ kv2 ∈ rest, IntLots kv2.2.lots :=
      fun kv2 h => hint kv2 (List.mem_cons_of_mem kv h)
    rw [List.map_cons]
    by_cases hs : kv.1 = s
    · subst hs
      obtain ⟨sn, hsn, hiff⟩ := intLots_sumQ_nat hintk
      by_cases hz : kv.2.lots = []
      · have hsum0 : sumQ kv.2.lots = 0 := by rw [hz]; rfl
        have hdrop : ¬ (STATS_EPSILON < (finalizeAgg kv.2).totalQty) := by
          rw [finalizeAgg_totalQty hintk, hsum0]
          norm_num [STATS_EPSILON]
        rw [List.filter_cons_of_neg (by simpa using hdrop)]
        unfold aggLotsOut
        rw [find_symbol_none hsymr hnd.1]
        unfold aggLotsA
        rw [getA, if_pos rfl]
        show ([] : List FifoLotDoc) = kv.2.lots.map roundLot
        rw [hz]
        rfl
      · have hpos : 0 < sn := by
          rcases Nat.eq_zero_or_pos sn with rfl | h
          · exact absurd (hiff.mpr rfl) hz
          · exact h
        have hkeep : STATS_EPSILON < (finalizeAgg kv.2).totalQty := by
          rw [finalizeAgg_totalQty hintk, hsn]
          calc STATS_EPSILON < 1 := by norm_num [STATS_EPSILON]
            _ ≤ (sn : ℚ) := by exact_mod_cast hpos
        rw [List.filter_cons_of_pos (by simpa using hkeep)]
        unfold aggLotsOut
        have hfind : ((finalizeAgg kv.2) :: (rest.map (fun kv2 => finalizeAgg kv2.2)).filter
            (fun g => decide (STATS_EPSILON < g.totalQty))).find?
            (fun agg => decide (agg.symbol = kv.1)) = some (finalizeAgg kv.2) := by
          rw [List.find?_cons_of_pos]
          have : (finalizeAgg kv.2).symbol = kv.1 := by
            unfold finalizeAgg
            exact hsymk
          rw [this]
          simp
        rw [hfind]
        unfold aggLotsA
        rw [getA, if_pos rfl]
        exact finalizeAgg_int_lots hintk
    · have hsymbne : ¬ ((finalizeAgg kv.2).symbol = s) := by
        have : (finalizeAgg kv.2).symbol = kv.1 := by
          unfold finalizeAgg
          exact hsymk
        rw [this]
        exact hs
      have hstep : aggLotsOut ((finalizeAgg kv.2 ::
          rest.map (fun kv2 => finalizeAgg kv2.2)).filter
          (fun g => decide (STATS_EPSILON < g.totalQty))) s =
          aggLotsOut ((rest.map (fun kv2 => finalizeAgg kv2.2)).filter
          (fun g => decide (STATS_EPSILON < g.totalQty))) s := by
        by_cases hkeep : STATS_EPSILON < (finalizeAgg kv.2).totalQty
        · rw [List.filter_cons_of_pos (by simpa using hkeep)]
          unfold aggLotsOut
          have hf : (finalizeAgg kv.2 :: (rest.map (fun kv2 => finalizeAgg kv2.2)).filter
              (fun g => decide (STATS_EPSILON < g.totalQty))).find?
              (fun agg => decide (agg.symbol = s)) =
              ((rest.map (fun kv2 => finalizeAgg kv2.2)).filter
              (fun g => decide (STATS_EPSILON < g.totalQty))).find?
              (fun agg => decide (agg.symbol = s)) :=
            List.find?_cons_of_neg _ (by simpa using hsymbne)
          rw [hf]
        · rw [List.filter_cons_of_neg (by simpa using hkeep)]
      rw [hstep, ih hnd.2 hsymr hintr s]
      unfold aggLotsA
      rw [getA, if_neg hs]


/-- C2 counterexample: the two-fill history buy 3e-6, sell 2e-6 (no
overselling) makes the incremental write-side ledger keep a residual
`1e-6` lot while the batch read-side replay drops it, so the two final
per-symbol lot lists differ. -/
theorem replay_agreement_counterexample :
    noOversellB [] residualFills = true ∧
    (writeFold [] residualFills).isOk = true ∧
    foldLotsAt residualFills ("A") ≠ aggLotsOut (aggregateOpenPositions residualFills) ("A") :=
  ⟨by decide!, by decide!, by decide!⟩

/-- C2 (amended): for every fill history sorted ascending by timestamp whose
quantities are positive whole numbers, if the incremental fill-by-fill
write-side fold (`computeFifoPositionPayload` starting from an empty
position store) succeeds — that is, no fill oversells — then for every
symbol its final stored lot list (quantities, prices and timestamps) equals
the lot list reported by the batch read-side replay
`aggregateOpenPositions` (the empty list when the symbol was dropped from
the output). -/
theorem writeFold_agrees_aggregate_int (orders : List NormalizedOrder)
    (mfin : List (String × PositionPayload))
    (hq : ∀ o ∈ orders, IsPosInt o.qty)
    (hsorted : List.Sorted ordLE orders)
    (hok : writeFold [] orders = Except.ok mfin) :
    ∀ s, writeLotsAt mfin s = aggLotsOut (aggregateOpenPositions orders) s := by
  obtain ⟨h1, h2, h3, h4⟩ := writeFold_invariant orders [] [] mfin hq hsorted
    (fun s => rfl)
    (fun kv hkv => absurd hkv (List.not_mem_nil kv))
    (fun kv hkv => absurd hkv (List.not_mem_nil kv))
    (fun kv hkv => absurd hkv (List.not_mem_nil kv))
    List.nodup_nil
    (fun kv hkv => absurd hkv (List.not_mem_nil kv))
    hok
  intro s
  rw [h1 s]
  exact (aggOut_lookup (orders.foldl aggStep []) h3 h4 h2 s).symm

/-- Witness for C2 (amended): buy 2 @ 100 (t=1) then sell 1 @ 120 (t=2). -/
theorem writeFold_agrees_aggregate_int_witness :
    (∀ o ∈ intFills, IsPosInt o.qty) ∧ List.Sorted ordLE intFills ∧
    writeFold [] intFills = Except.ok
      [("A", { symbol := "A", qty := 1, avgPrice := 100,
               lots := [{ qty := 1, price := 100, ts := 1 }], updatedAt := 2 })] ∧
    writeLotsAt
      [("A", { symbol := "A", qty := 1, avgPrice := 100,
               lots := [{ qty := 1, price := 100, ts := 1 }], updatedAt := 2 })] "A" =
      aggLotsOut (aggregateOpenPositions intFills) "A" :=
  ⟨by decide!, by decide!, by decide!,
    writeFold_agrees_aggregate_int intFills
      [("A", { symbol := "A", qty := 1, avgPrice := 100,
               lots := [{ qty := 1, price := 100, ts := 1 }], updatedAt := 2 })]
      (by decide!) (by decide!) (by decide!) "A"⟩

/- ------------------------------------------------------------------ -/
/- C5: conservation of quantity.                                       -/
/- ------------------------------------------------------------------ -/

theorem intLots_aggLotsA {a : List (String × AggregatedPosition)}
    (hint : ∀ kv ∈ a, IntLots kv.2.lots) (s : String) : IntLots (aggLotsA a s) := by
  unfold aggLotsA
  cases hget : getA a s with
  | none => intro lot hl; cases hl
  | some g => exact hint (s, g) (getA_mem hget)

theorem sumAcross_nil : sumAcross [] = 0 := rfl

theorem sumAcross_cons (kv : String × AggregatedPosition)
    (rest : List (String × AggregatedPosition)) :
    sumAcross (kv :: rest) = sumQ kv.2.lots + sumAcross rest := by
  simp [sumAcross]

theorem sumAcross_setA (a : List (String × AggregatedPosition)) (k : String)
    (e : AggregatedPosition) :
    sumAcross (setA a k e) = sumAcross a - sumQ (aggLotsA a k) + sumQ e.lots := by
  induction a with
  | nil =>
    have h1 : sumAcross (setA [] k e) = sumQ e.lots := by
      show sumAcross [(k, e)] = sumQ e.lots
      rw [sumAcross_cons, sumAcross_nil]
      show sumQ e.lots + 0 = sumQ e.lots
      ring
    rw [h1, sumAcross_nil, aggLotsA_nil, sumQ_nil]
    ring
  | cons kv rest ih =>
    by_cases hk : kv.1 = k
    · unfold setA
      rw [if_pos hk, sumAcross_cons, sumAcross_cons]
      have hlots : aggLotsA (kv :: rest) k = kv.2.lots := by
        unfold aggLotsA
        rw [getA, if_pos hk]
      rw [hlots]
      show sumQ e.lots + sumAcross rest =
        sumQ kv.2.lots + sumAcross rest - sumQ kv.2.lots + sumQ e.lots
      ring
    · unfold setA
      rw [if_neg hk, sumAcross_cons, sumAcross_cons, ih]
      have hlots : aggLotsA (kv :: rest) k = aggLotsA rest k := by
        unfold aggLotsA
        rw [getA, if_neg hk]
      rw [hlots]
      ring

theorem sumBuys_cons (o : NormalizedOrder) (os : List NormalizedOrder) :
    sumBuys (o :: os) = (if o.side = SpotSide.buy then o.qty else 0) + sumBuys os := by
  unfold sumBuys
  by_cases h : o.side = SpotSide.buy
  · rw [List.filter_cons_of_pos (by simpa using h), if_pos h]
    simp
  · rw [List.filter_cons_of_neg (by simpa using h), if_neg h]
    simp

theorem sumSells_cons (o : NormalizedOrder) (os : List NormalizedOrder) :
    sumSells (o :: os) = (if o.side = SpotSide.sell then o.qty else 0) + sumSells os := by
  unfold sumSells
  by_cases h : o.side = SpotSide.sell
  · rw [List.filter_cons_of_pos (by simpa using h), if_pos h]
    simp
  · rw [List.filter_cons_of_neg (by simpa using h), if_neg h]
    simp

theorem conservation_aux :
    ∀ (orders : List NormalizedOrder) (a : List (String × AggregatedPosition)),
      (∀ o ∈ orders, IsPosInt o.qty) →
      (∀ kv ∈ a, IntLots kv.2.lots) →
      noOversellB a orders = true →
      (∀ kv ∈ orders.foldl aggStep a, IntLots kv.2.lots) ∧
      sumAcross (orders.foldl aggStep a) = sumAcross a + sumBuys orders - sumSells orders := by
  intro orders
  induction orders with
  | nil =>
    intro a _ hint _
    refine ⟨hint, ?_⟩
    unfold sumBuys sumSells
    simp
  | cons o os ih =>
    intro a hq hint hno
    have hq0 : IsPosInt o.qty := hq o (List.mem_cons_self o os)
    have hqs : ∀ o2 ∈ os, IsPosInt o2.qty := fun o2 h2 => hq o2 (List.mem_cons_of_mem o h2)
    rw [noOversellB, Bool.and_eq_true] at hno
    have hhead := of_decide_eq_true hno.1
    have hR : IntLots (aggLotsA a o.symbol) := intLots_aggLotsA hint o.symbol
    have hstep_int : ∀ kv ∈ aggStep a o, IntLots kv.2.lots := by
      intro kv hkv
      rw [aggStep_eq] at hkv
      rcases mem_setA hkv with rfl | hold
      · show IntLots (aggEntry a o).lots
        rw [aggEntry_lots]
        cases hside : o.side with
        | buy =>
          rw [aggLotsA_aggStep_buy a o hside]
          intro lot hl
          rcases List.mem_append.mp hl with h1 | h2
          · exact hR lot h1
          · rw [List.mem_singleton.mp h2]
            exact hq0
        | sell =>
          rw [aggLotsA_aggStep_sell a o hside]
          obtain ⟨n, hn, hqn⟩ := isPosInt_iff.mp hq0
          rw [hqn]
          exact aggSell_int _ hR n
      · exact hint kv hold
    have hstep_sum : sumAcross (aggStep a o) = sumAcross a +
        (if o.side = SpotSide.buy then o.qty else 0) -
        (if o.side = SpotSide.sell then o.qty else 0) := by
      rw [aggStep_eq, sumAcross_setA, aggEntry_lots]
      cases hside : o.side with
      | buy =>
        rw [aggLotsA_aggStep_buy a o hside, sumQ_append, sumQ_cons, sumQ_nil]
        rw [if_pos rfl]
        rw [if_neg (fun hcon => SpotSide.noConfusion hcon)]
        show sumAcross a - sumQ (aggLotsA a o.symbol) +
            (sumQ (aggLotsA a o.symbol) + (o.qty + 0)) = sumAcross a + o.qty - 0
        ring
      | sell =>
        have hle : o.qty ≤ sumQ (aggLotsA a o.symbol) := hhead hside
        obtain ⟨n, hn, hqn⟩ := isPosInt_iff.mp hq0
        rw [aggLotsA_aggStep_sell a o hside, hqn]
        rw [hqn] at hle
        rw [aggSell_sum _ hR n, min_eq_left hle]
        rw [if_neg (fun hcon => SpotSide.noConfusion hcon)]
        rw [if_pos rfl]
        ring
    obtain ⟨hint2, hsum2⟩ := ih (aggStep a o) hqs hstep_int hno.2
    rw [List.foldl_cons]
    refine ⟨hint2, ?_⟩
    rw [hsum2, hstep_sum, sumBuys_cons, sumSells_cons]
    ring

theorem sumQ_map_roundLot {L : List FifoLotDoc} (hint : IntLots L) :
    sumQ (L.map roundLot) = sumQ L := by
  induction L with
  | nil => rfl
  | cons a rest ih =>
    rw [List.map_cons, sumQ_cons, sumQ_cons]
    have ha := hint a (List.mem_cons_self a rest)
    have : (roundLot a).qty = a.qty := by
      show round6 a.qty = a.qty
      exact ha.round6_fix
    rw [this, ih (fun x hx => hint x (List.mem_cons_of_mem a hx))]

theorem outTotal_cons (g : AggregatedPosition) (rest : List AggregatedPosition) :
    outTotal (g :: rest) = sumQ g.lots + outTotal rest := by
  simp [outTotal]

theorem outTotal_eq :
    ∀ (a : List (String × AggregatedPosition)),
      (∀ kv ∈ a, IntLots kv.2.lots) →
      outTotal ((a.map (fun kv => finalizeAgg kv.2)).filter
        (fun g => decide (STATS_EPSILON < g.totalQty))) = sumAcross a := by
  intro a
  induction a with
  | nil => intro _; rfl
  | cons kv rest ih =>
    intro hint
    have hintk : IntLots kv.2.lots := hint kv (List.mem_cons_self kv rest)
    have hintr : ∀ kv2 ∈ rest, IntLots kv2.2.lots :=
      fun kv2 h => hint kv2 (List.mem_cons_of_mem kv h)
    have hsumfin : sumQ (finalizeAgg kv.2).lots = sumQ kv.2.lots := by
      rw [finalizeAgg_int_lots hintk]
      exact sumQ_map_roundLot hintk
    rw [List.map_cons, sumAcross_cons]
    by_cases hkeep : STATS_EPSILON < (finalizeAgg kv.2).totalQty
    · rw [List.filter_cons_of_pos (by simpa using hkeep), outTotal_cons, hsumfin,
        ih hintr]
    · rw [List.filter_cons_of_neg (by simpa using hkeep), ih hintr]
      have hzero : sumQ kv.2.lots = 0 := by
        obtain ⟨sn, hsn, -⟩ := intLots_sumQ_nat hintk
        rw [finalizeAgg_totalQty hintk, hsn] at hkeep
        have : sn = 0 := by
          by_contra hcon
          apply hkeep
          calc STATS_EPSILON < 1 := by norm_num [STATS_EPSILON]
            _ ≤ (sn : ℚ) := by
                have : 1 ≤ sn := Nat.one_le_iff_ne_zero.mpr hcon
                exact_mod_cast this
        rw [hsn, this]
        rfl
      rw [hzero]
      ring

/-- C5 counterexample: the four-fill history buy 3e-6, sell 2e-6, buy 3e-6,
sell 2e-6 (no overselling) leaves `Σ buys − Σ sells = 2e-6` while the
replayed open lots sum to `0`: the defect exceeds the claimed `1e-6`
tolerance. -/
theorem conservation_counterexample :
    noOversellB [] residualFills2 = true ∧
    ¬ |sumBuys residualFills2 - sumSells residualFills2 -
        outTotal (aggregateOpenPositions residualFills2)| ≤ STATS_EPSILON :=
  ⟨by decide!, by decide!⟩

/-- C5 (amended): for every fill sequence with positive whole-number
quantities and no overselling (each sell's quantity is at most the quantity
then held in its symbol's lots), the sum of the buy quantities minus the sum
of the sell quantities equals the total remaining open-lot quantity across
all symbols of `aggregateOpenPositions` — exactly, hence in particular
within the claimed 1e-6. -/
theorem conservation_int (orders : List NormalizedOrder)
    (hq : ∀ o ∈ orders, IsPosInt o.qty)
    (hno : noOversellB [] orders = true) :
    sumBuys orders - sumSells orders = outTotal (aggregateOpenPositions orders) := by
  obtain ⟨hint, hsum⟩ := conservation_aux orders []
    hq (fun kv hkv => absurd hkv (List.not_mem_nil kv)) hno
  have hout : outTotal (aggregateOpenPositions orders) =
      sumAcross (orders.foldl aggStep []) := outTotal_eq (orders.foldl aggStep []) hint
  rw [hout, hsum, sumAcross_nil]
  ring

/-- Witness for C5 (amended): buy 2 @ 100 then sell 1 @ 120. -/
theorem conservation_int_witness :
    (∀ o ∈ intFills, IsPosInt o.qty) ∧ noOversellB [] intFills = true ∧
    sumBuys intFills - sumSells intFills = outTotal (aggregateOpenPositions intFills) :=
  ⟨by decide!, by decide!, conservation_int intFills (by decide!) (by decide!)⟩


end XMarket
